import Mathlib

/-! # circumflex: the comment-tree renderer (`comment_parser.go`)

A shallow embedding of the comment renderer of circumflex.

* A Go `string` that holds valid UTF-8 is modelled as the list of its runes (`Str`);
  `len` is the number of bytes of the UTF-8 encoding (`byteLen`), and `range` over a
  string yields every rune together with the byte offset at which it starts.
* A Go `int` is a 64-bit integer: it is modelled as an `Int` in the range of `isInt64`,
  and the arithmetic on the widths and sizes the caller provides (`indentSize*level`,
  the subtractions and the addition of the width computations) wraps around at 64 bits
  (`wrap64`). The nesting depth `level + 1` and the reply counter count nodes of the
  comment tree and stay below `2^63` for every tree the program can hold.
* `strings.Replace`, `strings.ReplaceAll` and `strconv.Itoa` of the Go standard library
  are modelled by their documented behaviour.
* Everything the renderer takes from outside `comment_parser.go` (style constants and
  style helpers of the package, `text.Wrap`, `text.Len`, the terminal width) is a field
  of `Env`.
-/

namespace Circumflex

/-- A Go string holding valid UTF-8, as the list of its runes. -/
abbrev Str := List Char

/-- Go `len(s)`: the number of bytes of the UTF-8 encoding of `s`. -/
def byteLen : Str → Nat
  | [] => 0
  | c :: cs => c.utf8Size + byteLen cs

/-! ## `strings.Replace` and `strings.ReplaceAll` -/

/-- The loop of `strings.Replace` for a non-empty `old`: the occurrences of `old` are
found from left to right without overlap. `lim` is the number of replacements that are
still allowed (`none`: no limit), `skip` counts the runes of the occurrence just
replaced that still have to be passed over. -/
def replaceLoop (old new : Str) : Option Nat → Nat → Str → Str
  | _, _, [] => []
  | lim, skip + 1, _ :: cs => replaceLoop old new lim skip cs
  | some 0, 0, c :: cs => c :: cs
  | lim, 0, c :: cs =>
    if old.isPrefixOf (c :: cs) then
      new ++ replaceLoop old new (lim.map (fun n => n - 1)) (old.length - 1) cs
    else
      c :: replaceLoop old new lim 0 cs

/-- The loop of `strings.Replace` for the empty `old`: `new` is inserted before every
rune and after the last one, up to `lim` insertions. -/
def replaceEmpty (new : Str) : Option Nat → Str → Str
  | some 0, s => s
  | _, [] => new
  | lim, c :: cs => new ++ c :: replaceEmpty new (lim.map (fun n => n - 1)) cs

/-- Go `strings.Replace(s, old, new, n)`: the first `n` non-overlapping occurrences of
`old` replaced by `new`, all of them when `n < 0`. -/
def Replace (s old new : Str) (n : Int) : Str :=
  if old = new ∨ n = 0 then s
  else
    let lim : Option Nat := if n < 0 then none else some n.toNat
    if old = [] then replaceEmpty new lim s else replaceLoop old new lim 0 s

/-- Go `strings.ReplaceAll(s, old, new)`, which is `Replace(s, old, new, -1)`. -/
def ReplaceAll (s old new : Str) : Str := Replace s old new (-1)

/-! ## Go `int` -/

/-- The values of a Go `int` on the 64-bit platforms the program runs on. -/
abbrev isInt64 (x : Int) : Prop := -9223372036854775808 ≤ x ∧ x < 9223372036854775808

/-- The result of an `int` operation whose exact value is `x`: Go wraps around at 64
bits. -/
def wrap64 (x : Int) : Int :=
  (x + 9223372036854775808) % 18446744073709551616 - 9223372036854775808

/-! ## `strconv.Itoa` -/

/-- Go `strconv.Itoa`: the decimal rendering of an integer. -/
def Itoa (n : Int) : Str :=
  if n < 0 then '-' :: Nat.toDigits 10 n.natAbs else Nat.toDigits 10 n.natAbs

/-! ## The environment of the renderer -/

/-- What `comment_parser.go` uses and does not define: the style constants and style
helpers of the package, the wrapping library and the terminal. -/
structure Env where
  NewLine : Str
  DoubleNewLine : Str
  Normal : Str
  Italic : Str
  Dimmed : Str
  Link1 : Str
  Link2 : Str
  Link3 : Str
  bold : Str → Str
  dimmed : Str → Str
  underline : Str → Str
  paren : Str → Str
  white : Str → Str
  red : Str → Str
  yellow : Str → Str
  green : Str → Str
  blue : Str → Str
  teal : Str → Str
  purple : Str → Str
  getColoredIndentBlock : Int → Str
  /-- The first result of `text.Wrap(text, width, opts...)`; the third argument is the
  padding given by a `text.WrapPad` option, `none` without one. -/
  Wrap : Str → Int → Option Str → Str
  /-- Result of `text.Len`: the visible length of a string. -/
  Len : Str → Int
  /-- The first result of `terminal.Width()`, converted to `int`. -/
  terminalWidth : Int

/-! ## Hyperlinks -/

/-- Source: `getHyperlinkText`. -/
def getHyperlinkText (E : Env) (URL text : Str) : Str :=
  E.Link1 ++ URL ++ E.Link2 ++ text ++ E.Link3

/-- Source: `getHyperlink`. -/
def getHyperlink (E : Env) (domain URL : Str) (id : Int) : Str :=
  if domain ≠ [] then getHyperlinkText E URL domain
  else
    let linkToComments := "https://news.ycombinator.com/item?id=".toList ++ Itoa id
    let linkText := "item?id=".toList ++ Itoa id
    getHyperlinkText E linkToComments linkText

/-- The loop of `truncateURL`: `i` is the byte offset of the next rune, `acc` is
`truncatedURL`. -/
def truncateLoop : Str → Nat → Str → Str
  | [], _, acc => acc
  | c :: cs, i, acc =>
    if i = 60 then acc ++ "...".toList
    else truncateLoop cs (i + c.utf8Size) (acc ++ [c])

/-- Source: `truncateURL`. -/
def truncateURL (URL : Str) : Str :=
  if byteLen URL < 60 then URL else truncateLoop URL 0 []

/-- Source: `applyURLs`; the `for ... range URLs` loop is the recursion on the list. -/
def applyURLs (E : Env) (comment : Str) : List Str → Str
  | [] => comment
  | URL :: rest =>
    let truncatedURL := truncateURL URL
    let URLWithHyperlinkCode := getHyperlinkText E URL truncatedURL
    applyURLs E (ReplaceAll comment truncatedURL URLWithHyperlinkCode) rest


/-! ## Text transforms -/

/-- Source: `replaceCharacters`. -/
def replaceCharacters (input : Str) : Str :=
  let input := ReplaceAll input "&#x27;".toList "'".toList
  let input := ReplaceAll input "&gt;".toList ">".toList
  let input := ReplaceAll input "&lt;".toList "<".toList
  let input := ReplaceAll input "&#x2F;".toList "/".toList
  let input := ReplaceAll input "&quot;".toList "\"".toList
  let input := ReplaceAll input "&amp;".toList "&".toList
  input

/-- Source: `replaceHTML`. -/
def replaceHTML (E : Env) (input : Str) : Str :=
  let input := Replace input "<p>".toList [] 1
  let input := ReplaceAll input "<p>".toList E.DoubleNewLine
  let input := ReplaceAll input "<i>".toList E.Italic
  let input := ReplaceAll input "</i>".toList E.Normal
  let input := ReplaceAll input "</a>".toList []
  let input := ReplaceAll input "<pre><code>".toList E.Dimmed
  let input := ReplaceAll input "</code></pre>".toList E.Normal
  input

/-- Source: `colorizeLinkNumbers`. -/
def colorizeLinkNumbers (E : Env) (input : Str) : Str :=
  let input := ReplaceAll input "[0]".toList ("[".toList ++ E.white "0".toList ++ "]".toList)
  let input := ReplaceAll input "[1]".toList ("[".toList ++ E.red "1".toList ++ "]".toList)
  let input := ReplaceAll input "[2]".toList ("[".toList ++ E.yellow "2".toList ++ "]".toList)
  let input := ReplaceAll input "[3]".toList ("[".toList ++ E.green "3".toList ++ "]".toList)
  let input := ReplaceAll input "[4]".toList ("[".toList ++ E.blue "4".toList ++ "]".toList)
  let input := ReplaceAll input "[5]".toList ("[".toList ++ E.teal "5".toList ++ "]".toList)
  let input := ReplaceAll input "[6]".toList ("[".toList ++ E.purple "6".toList ++ "]".toList)
  let input := ReplaceAll input "[7]".toList ("[".toList ++ E.white "7".toList ++ "]".toList)
  let input := ReplaceAll input "[8]".toList ("[".toList ++ E.red "8".toList ++ "]".toList)
  let input := ReplaceAll input "[9]".toList ("[".toList ++ E.yellow "9".toList ++ "]".toList)
  let input := ReplaceAll input "[10]".toList ("[".toList ++ E.green "10".toList ++ "]".toList)
  input

/-! ## The anchor expression `<a href=".*?" rel="nofollow">`

Go `regexp` finds the leftmost match and prefers, for the lazy `.*?`, the shortest run;
`.` matches every rune but the line feed. -/

/-- The literal that opens the expression. -/
def anchorOpen : Str := "<a href=\"".toList

/-- The literal that closes the expression. -/
def anchorClose : Str := "\" rel=\"nofollow\">".toList

/-- The part `.*?" rel="nofollow">` matched at the start of a string: the number of
runes taken by `.*?`, or `none` when there is no match. -/
def matchLazyClose : Str → Option Nat
  | [] => none
  | c :: cs =>
    if anchorClose.isPrefixOf (c :: cs) then some 0
    else if c = '\n' then none
    else (matchLazyClose cs).map (fun k => k + 1)

/-- The whole expression matched at the start of a string: the length of the match in
runes, or `none` when there is no match there. -/
def matchAnchor (s : Str) : Option Nat :=
  if anchorOpen.isPrefixOf s then
    (matchLazyClose (s.drop anchorOpen.length)).map
      (fun k => anchorOpen.length + k + anchorClose.length)
  else none

/-- Go `FindAllString` for the anchor expression: the successive non-overlapping
matches, at most `lim` of them (`none`: no limit); `skip` counts the runes of the last
match that still have to be passed over. -/
def findAllAnchors : Option Nat → Nat → Str → List Str
  | _, _, [] => []
  | lim, skip + 1, _ :: cs => findAllAnchors lim skip cs
  | some 0, 0, _ :: _ => []
  | lim, 0, c :: cs =>
    match matchAnchor (c :: cs) with
    | some k => (c :: cs).take k :: findAllAnchors (lim.map (fun n => n - 1)) (k - 1) cs
    | none => findAllAnchors lim 0 cs

/-- Go `ReplaceAllString` for the anchor expression and a replacement without `$`:
every match is replaced by `repl`. -/
def replaceAllAnchors (repl : Str) : Nat → Str → Str
  | _, [] => []
  | skip + 1, _ :: cs => replaceAllAnchors repl skip cs
  | 0, c :: cs =>
    match matchAnchor (c :: cs) with
    | some k => repl ++ replaceAllAnchors repl (k - 1) cs
    | none => c :: replaceAllAnchors repl 0 cs

/-- Source: `extractURLs`. -/
def extractURLs (input : Str) : List Str :=
  let URLs := findAllAnchors (some 10) 0 input
  URLs.map (fun m => ReplaceAll (ReplaceAll m anchorOpen []) anchorClose [])

/-- Source: `trimURLs`. -/
def trimURLs (comment : Str) : Str := replaceAllAnchors [] 0 comment

/-- Source: `parseComment`. -/
def parseComment (E : Env) (comment : Str) : Str × List Str :=
  let comment := replaceCharacters comment
  let comment := replaceHTML E comment
  let comment := colorizeLinkNumbers E comment
  let URLs := extractURLs comment
  let comment := trimURLs comment
  (comment, URLs)

/-! ## Layout -/

/-- Source: `max`. -/
def max (x y : Int) : Int := if x < y then y else x

/-- Source: `getAdjustedCommentWidth`; `screenWidth` is the value the source reads from
`terminal.Width()`. -/
def getAdjustedCommentWidth (screenWidth level indentSize commentWidth : Int) : Int :=
  let currentIndentSize := wrap64 (indentSize * level)
  let usableScreenSize := wrap64 (screenWidth - currentIndentSize)
  if commentWidth = 0 then max usableScreenSize 40
  else if usableScreenSize < commentWidth then usableScreenSize
  else wrap64 (commentWidth + wrap64 (indentSize * level))

/-- Source: `getIndentBlockWithoutBar`; the loop `for i := 0; i < indentSize*level; i++`
appends one space for every `i` from 0 below the product as Go computes it. -/
def getIndentBlockWithoutBar (level indentSize : Int) : Str :=
  if level = 0 then []
  else " ".toList ++ List.replicate (wrap64 (indentSize * level)).toNat ' '

/-- Source: `getIndentBlock`; the loop `for i := 0; i < indentSize*level; i++` puts one
space in front for every `i` from 0 below the product as Go computes it. -/
def getIndentBlock (E : Env) (level indentSize : Int) : Str :=
  if level = 0 then []
  else
    List.replicate (wrap64 (indentSize * level)).toNat ' ' ++
      (E.Normal ++ E.getColoredIndentBlock level ++ "▎".toList ++ E.Normal)

/-- Source: `getSeparator`. -/
def getSeparator (commentWidth : Int) : Str := List.replicate commentWidth.toNat '-'

/-! ## Headings -/

/-- Source: `labelAuthor`; the cases of the `switch` are tried from top to bottom. -/
def labelAuthor (E : Env) (author originalPoster parentPoster : Str) : Str :=
  let authorInBold := E.bold author
  if author = "dang".toList then authorInBold ++ E.green " mod".toList
  else if author = "sctb".toList then authorInBold ++ E.green " mod".toList
  else if author = originalPoster then authorInBold ++ E.red " OP".toList
  else if author = parentPoster then authorInBold ++ E.purple " PP".toList
  else authorInBold

/-- Source: `getReplies`. -/
def getReplies (E : Env) (level replies : Int) : Str :=
  if level = 0 then
    let numberOfReplies := if replies > 1 then " ".toList ++ Itoa replies ++ " ⤶".toList else []
    E.underline (E.dimmed (" ::".toList ++ numberOfReplies))
  else []

/-- Source: `getUnderlineString`. -/
def getUnderlineString (E : Env) (author timeAgo replies : Str) (commentWidth : Int) : Str :=
  let lengthOfUnderline :=
    wrap64 (wrap64 (wrap64 (commentWidth - E.Len author) - E.Len timeAgo) - E.Len replies)
  E.dimmed (E.underline (List.replicate lengthOfUnderline.toNat ' '))

/-- Source: `getInfoLine`. -/
def getInfoLine (E : Env) (points : Int) (author timeAgo : Str) (numberOfComments : Int) : Str :=
  let p := Itoa points
  let c := Itoa numberOfComments
  E.dimmed (p ++ " points by ".toList ++ author ++ " ".toList ++ timeAgo ++ " • ".toList ++ c ++
    " comments".toList) ++ E.NewLine

/-- Source: `getHeadline`. -/
def getHeadline (E : Env) (title domain URL : Str) (id commentWidth : Int) : Str :=
  let headline := title ++ " ".toList ++ E.paren domain ++ E.NewLine
  let wrappedHeadline := E.Wrap headline commentWidth none
  let hyperlink := getHyperlink E domain URL id
  ReplaceAll wrappedHeadline domain hyperlink

/-- Source: `parseRootComment`. -/
def parseRootComment (E : Env) (c : Str) (commentWidth : Int) : Str :=
  if c = [] then []
  else
    let (comment, URLs) := parseComment E c
    let wrappedComment := E.Wrap comment commentWidth none
    let wrappedComment := applyURLs E wrappedComment URLs
    wrappedComment ++ E.NewLine

/-! ## The comment tree -/

/-- Source: `Comments`; `Replies` holds the replies themselves (the source holds
pointers to them), so a value of the type is a finite tree. -/
structure Comments where
  Author : Str
  Title : Str
  Comment : Str
  CommentsCount : Int
  Time : Str
  Points : Int
  URL : Str
  Domain : Str
  ID : Int
  Replies : List Comments

mutual
/-- Source: `getNumberOfReplies`; the counter behind the pointer `repliesSoFar` is
passed in and its final value is returned. -/
def getNumberOfReplies : Comments → Int → Int
  | ⟨_, _, _, _, _, _, _, _, _, replies⟩, repliesSoFar =>
    getNumberOfRepliesLoop replies repliesSoFar
/-- The `for ... range comments.Replies` loop of `getNumberOfReplies`. -/
def getNumberOfRepliesLoop : List Comments → Int → Int
  | [], repliesSoFar => repliesSoFar
  | reply :: rest, repliesSoFar =>
    getNumberOfRepliesLoop rest (getNumberOfReplies reply (repliesSoFar + 1))
end

/-- Source: `getCommentHeading`. -/
def getCommentHeading (E : Env) (c : Comments) (level commentWidth : Int)
    (originalPoster parentPoster : Str) : Str :=
  let author := labelAuthor E c.Author originalPoster parentPoster ++ " ".toList
  let numberOfReplies : Int := 0
  let timeAgo := E.dimmed c.Time
  let replies := getReplies E level (getNumberOfReplies c numberOfReplies)
  if level = 0 then
    let timeAgo := E.underline timeAgo
    let replies := E.underline replies
    let headerLine := getUnderlineString E author timeAgo replies commentWidth
    author ++ timeAgo ++ replies ++ headerLine ++ E.NewLine
  else
    author ++ timeAgo ++ replies ++ [] ++ E.NewLine

/-- Source: `getHeader`. -/
def getHeader (E : Env) (c : Comments) (commentWidth : Int) : Str :=
  let headline := getHeadline E c.Title c.Domain c.URL c.ID commentWidth
  let infoLine := getInfoLine E c.Points c.Author c.Time c.CommentsCount
  let submissionComment := parseRootComment E c.Comment commentWidth
  let separator := getSeparator commentWidth
  headline ++ infoLine ++ submissionComment ++ separator ++ E.DoubleNewLine

/-- The part of `prettyPrintComments` before its loop: the block of the comment `c`
itself (`fullComment` after `applyURLs`). -/
def commentBlock (E : Env) (c : Comments) (level indentSize commentWidth : Int)
    (originalPoster parentPoster : Str) : Str :=
  let (comment, URLs) := parseComment E c.Comment
  let adjustedCommentWidth := getAdjustedCommentWidth E.terminalWidth level indentSize commentWidth
  let indentBlock := getIndentBlock E level indentSize
  let wrappedAndPaddedComment := E.Wrap comment adjustedCommentWidth (some indentBlock)
  let paddingWithNoBlock := getIndentBlockWithoutBar level indentSize
  let author := getCommentHeading E c level commentWidth originalPoster parentPoster
  let paddedAuthor := E.Wrap author adjustedCommentWidth (some paddingWithNoBlock)
  let fullComment := paddedAuthor ++ wrappedAndPaddedComment ++ E.DoubleNewLine
  applyURLs E fullComment URLs

mutual
/-- Source: `prettyPrintComments`. -/
def prettyPrintComments (E : Env) : Comments → Int → Int → Int → Str → Str → Str
  | ⟨a, t, cm, cc, tm, p, u, d, i, replies⟩, level, indentSize, commentWidth,
      originalPoster, parentPoster =>
    let fullComment := commentBlock E ⟨a, t, cm, cc, tm, p, u, d, i, replies⟩ level indentSize
      commentWidth originalPoster parentPoster
    let parentPoster := if level = 0 then a else parentPoster
    fullComment ++
      prettyPrintCommentsLoop E replies level indentSize commentWidth originalPoster parentPoster
/-- The `for ... range c.Replies` loop of `prettyPrintComments`: the text it appends to
`fullComment`. -/
def prettyPrintCommentsLoop (E : Env) : List Comments → Int → Int → Int → Str → Str → Str
  | [], _, _, _, _, _ => []
  | s :: rest, level, indentSize, commentWidth, originalPoster, parentPoster =>
    prettyPrintComments E s (level + 1) indentSize commentWidth originalPoster parentPoster ++
      prettyPrintCommentsLoop E rest level indentSize commentWidth originalPoster parentPoster
end

/-- The `for ... range comments.Replies` loop of `printCommentTree`: the final value of
`commentTree`. -/
def printCommentTreeLoop (E : Env) (indentSize commentWith : Int) (originalPoster : Str) :
    List Comments → Str
  | [] => []
  | reply :: rest =>
    prettyPrintComments E reply 0 indentSize commentWith originalPoster [] ++
      printCommentTreeLoop E indentSize commentWith originalPoster rest

/-- Source: `printCommentTree`. -/
def printCommentTree (E : Env) (comments : Comments) (indentSize commentWith : Int) : Str :=
  let header := getHeader E comments commentWith
  let originalPoster := comments.Author
  let commentTree := printCommentTreeLoop E indentSize commentWith originalPoster comments.Replies
  header ++ commentTree

/-! ## Reference definitions for the tree claims -/

mutual
/-- Spec: the nodes of the subtree of a comment in depth-first pre-order, every node
with its level: the comment itself at `level`, every child one level below its parent,
children in their original order. -/
def preOrder : Comments → Int → List (Comments × Int)
  | ⟨a, t, cm, cc, tm, p, u, d, i, replies⟩, level =>
    (⟨a, t, cm, cc, tm, p, u, d, i, replies⟩, level) :: preOrderList replies (level + 1)
/-- Spec: the pre-order lists of a sequence of sibling comments, one after the other. -/
def preOrderList : List Comments → Int → List (Comments × Int)
  | [], _ => []
  | r :: rest, level => preOrder r level ++ preOrderList rest level
end

mutual
/-- Spec: the total number of descendant replies of a comment, counted across all
depths, the comment itself not counted. -/
def descendants : Comments → Nat
  | ⟨_, _, _, _, _, _, _, _, _, replies⟩ => descendantsList replies
/-- Spec: the sum, over a sequence of replies, of one plus the descendants of each. -/
def descendantsList : List Comments → Nat
  | [] => 0
  | r :: rest => 1 + descendants r + descendantsList rest
end

/-! ## A concrete environment and concrete comments for evaluation -/

/-- An environment for evaluating the renderer on concrete inputs: the escape sequences
of an ANSI terminal, a wrapper that puts the padding in front of the text and breaks no
line, the number of runes as visible length, and a terminal of 80 columns. -/
def ansiEnv : Env where
  NewLine := "\n".toList
  DoubleNewLine := "\n\n".toList
  Normal := "\x1b[0m".toList
  Italic := "\x1b[3m".toList
  Dimmed := "\x1b[2m".toList
  Link1 := "\x1b]8;;".toList
  Link2 := "\x1b\\".toList
  Link3 := "\x1b]8;;\x1b\\".toList
  bold := fun s => "\x1b[1m".toList ++ s ++ "\x1b[0m".toList
  dimmed := fun s => "\x1b[2m".toList ++ s ++ "\x1b[0m".toList
  underline := fun s => "\x1b[4m".toList ++ s ++ "\x1b[0m".toList
  paren := fun s => "(".toList ++ s ++ ")".toList
  white := fun s => "\x1b[37m".toList ++ s ++ "\x1b[0m".toList
  red := fun s => "\x1b[31m".toList ++ s ++ "\x1b[0m".toList
  yellow := fun s => "\x1b[33m".toList ++ s ++ "\x1b[0m".toList
  green := fun s => "\x1b[32m".toList ++ s ++ "\x1b[0m".toList
  blue := fun s => "\x1b[34m".toList ++ s ++ "\x1b[0m".toList
  teal := fun s => "\x1b[36m".toList ++ s ++ "\x1b[0m".toList
  purple := fun s => "\x1b[35m".toList ++ s ++ "\x1b[0m".toList
  getColoredIndentBlock := fun _ => "\x1b[31m".toList
  Wrap := fun s _ pad => pad.getD [] ++ s
  Len := fun s => s.length
  terminalWidth := 80

/-- A comment without replies, with the given author and body. -/
def leaf (author body : Str) : Comments :=
  ⟨author, [], body, 0, "1 hour ago".toList, 0, [], [], 0, []⟩

/-- A comment with the given author, body and replies. -/
def node (author body : Str) (replies : List Comments) : Comments :=
  ⟨author, [], body, 0, "1 hour ago".toList, 0, [], [], 0, replies⟩

/-- A small thread: `bob` answers the story, `carol` and `bob` answer below. -/
def sampleThread : Comments :=
  node "bob".toList "Hi &amp; bye".toList
    [node "carol".toList "yes".toList [leaf "bob".toList "no".toList],
     leaf "dave".toList "maybe".toList]

/-- A small story by `alice` with `sampleThread` and one more top-level comment. -/
def sampleStory : Comments :=
  ⟨"alice".toList, "Foo".toList, [], 4, "2 hours ago".toList, 42, "https://example.com/foo".toList,
    "example.com".toList, 7, [sampleThread, leaf "alice".toList "thanks".toList]⟩

/-- A URL of 90 single-byte characters. -/
def longURL : Str :=
  "https://news.example.com/articles/2021/03/14/a-rather-long-title-of-an-article-about-termi".toList

/-- A URL of 61 characters and 121 bytes: no character starts at byte offset 60. -/
def wideURL : Str := 'a' :: List.replicate 60 'é'

/-- A comment text that shows the same link twice. -/
def twiceText : Str := "see https://a.io and https://a.io".toList

/-! ## Reference definitions for the anchor claims -/

/-- Spec: the anchor-opening tag `<a href="u" rel="nofollow">` with the href target `u`. -/
def anchorTag (u : Str) : Str := anchorOpen ++ u ++ anchorClose

/-- Spec: a text with anchor-opening tags: the piece `p0`, then for every pair `(u, p)`
of the list, in order, the tag with the href target `u` followed by the piece `p`. -/
def withAnchors (p0 : Str) (tags : List (Str × Str)) : Str :=
  p0 ++ tags.flatMap (fun x => anchorTag x.1 ++ x.2)

/-- A comment text with two links, as `extractURLs` receives it: entities decoded and the
closing `</a>` removed. -/
def twoLinks : Str :=
  withAnchors "see ".toList
    [("https://a.io/x".toList, "https://a.io/x and ".toList),
     ("https://b.org".toList, "https://b.org [1]".toList)]

/-- The pairs of an input with eleven links. -/
def elevenTags : List (Str × Str) := List.replicate 11 ("https://a.io".toList, " ".toList)

/-- A link whose href target holds the bracketed token `[1]`. -/
def bracketLink : Str := "<a href=\"https://a.io/[1]\" rel=\"nofollow\">".toList

/-- A link whose href target holds the bracketed token `[0]` in a query. -/
def indexLink : Str := "<a href=\"https://a.io/?f[0]=x\" rel=\"nofollow\">".toList

/-- A story by `alice` whose only top-level comment is deleted: its author is the empty
string. -/
def deletedStory : Comments :=
  ⟨"alice".toList, "Foo".toList, [], 1, "2 hours ago".toList, 42, "https://example.com/foo".toList,
    "example.com".toList, 7, [leaf [] "[deleted]".toList]⟩

/-! ## Reference definitions for the link claims -/

/-- Spec: a text that shows links: for every pair `(URL, p)` of the list, in order, the
display string `truncateURL URL` followed by the piece `p`. -/
def shownLinks (tags : List (Str × Str)) : Str :=
  tags.flatMap (fun x => truncateURL x.1 ++ x.2)

/-- Spec: the same text with every display string wrapped in one hyperlink escape
sequence whose target is the URL. -/
def wrappedLinks (E : Env) (tags : List (Str × Str)) : Str :=
  tags.flatMap (fun x => getHyperlinkText E x.1 (truncateURL x.1) ++ x.2)

/-- Spec: every display string occurs at its own place only. `done` is the text in
front of the links, with the links in it already wrapped; the display string of the next
URL is not empty, does not occur in `done` (also not running into its own place) and
does not occur in the text behind its place; and the same holds for the links that
follow, with `done` extended by the wrapped link and its piece. -/
def linksApart (E : Env) : Str → List (Str × Str) → Bool
  | _, [] => true
  | done, x :: ts =>
    decide (truncateURL x.1 ≠ []) &&
    decide (¬ truncateURL x.1 <:+: done ++ (truncateURL x.1).dropLast) &&
    decide (¬ truncateURL x.1 <:+: x.2 ++ shownLinks ts) &&
    linksApart E (done ++ getHyperlinkText E x.1 (truncateURL x.1) ++ x.2) ts

/-! ## Lemmas on `strings.ReplaceAll` -/

theorem replaceLoop_nil (old new : Str) (lim : Option Nat) (k : Nat) :
    replaceLoop old new lim k [] = [] := by
  cases k <;> cases lim <;> simp [replaceLoop]

theorem replaceLoop_skip (old new : Str) (lim : Option Nat) (k : Nat) (s : Str) :
    replaceLoop old new lim k s = replaceLoop old new lim 0 (s.drop k) := by
  induction s generalizing k with
  | nil => simp [replaceLoop_nil]
  | cons c cs ih =>
    cases k with
    | zero => simp
    | succ k => simp [replaceLoop, ih k]

theorem replaceLoop_cons (old new : Str) (h : old ≠ []) (c : Char) (cs : Str) :
    replaceLoop old new none 0 (c :: cs) =
      if old.isPrefixOf (c :: cs) then
        new ++ replaceLoop old new none 0 ((c :: cs).drop old.length)
      else c :: replaceLoop old new none 0 cs := by
  have hlen : old.length = (old.length - 1) + 1 := by
    have : 0 < old.length := List.length_pos.mpr h
    omega
  conv_rhs => rw [hlen]
  simp only [replaceLoop, Option.map_none', List.drop_succ_cons]
  rw [replaceLoop_skip]

theorem replaceLoop_of_absent (old new : Str) (h : old ≠ []) (s : Str)
    (hs : ¬ old <:+: s) : replaceLoop old new none 0 s = s := by
  induction s with
  | nil => simp [replaceLoop_nil]
  | cons c cs ih =>
    rw [replaceLoop_cons old new h]
    have hp : ¬ old <+: c :: cs := fun hp => hs hp.isInfix
    have hc : ¬ old <:+: cs := fun hc => hs (hc.trans (List.suffix_cons c cs).isInfix)
    rw [if_neg (by simpa [List.isPrefixOf_iff_prefix] using hp), ih hc]

theorem ReplaceAll_eq (s old new : Str) :
    ReplaceAll s old new =
      if old = new then s
      else if old = [] then replaceEmpty new none s else replaceLoop old new none 0 s := by
  simp [ReplaceAll, Replace]

theorem ReplaceAll_of_absent (s old new : Str) (h : old ≠ []) (hs : ¬ old <:+: s) :
    ReplaceAll s old new = s := by
  rw [ReplaceAll_eq]
  simp [h, replaceLoop_of_absent old new h s hs]

theorem replaceLoop_append_left (old new : Str) (h : old ≠ []) (rest : Str) :
    replaceLoop old new none 0 (old ++ rest) = new ++ replaceLoop old new none 0 rest := by
  obtain ⟨c, cs, rfl⟩ := List.exists_cons_of_ne_nil h
  have hpre : (c :: cs).isPrefixOf (c :: (cs ++ rest)) = true := by
    rw [List.isPrefixOf_iff_prefix]
    exact List.prefix_append (c :: cs) rest
  have hdrop : List.drop (c :: cs).length (c :: (cs ++ rest)) = rest :=
    List.drop_left (c :: cs) rest
  rw [List.cons_append, replaceLoop_cons _ _ h, if_pos hpre, hdrop]

theorem ReplaceAll_self (s new : Str) : ReplaceAll s s new = new := by
  rw [ReplaceAll_eq]
  split
  · assumption
  · split
    · subst s
      rfl
    · rename_i h
      have := replaceLoop_append_left s new h []
      simpa [replaceLoop_nil] using this

/-- The first occurrence of `old` in `p ++ old ++ rest`, when none starts inside `p`, is
replaced and the loop goes on behind it. -/
theorem replaceLoop_append_first (old new : Str) (h : old ≠ []) (p rest : Str)
    (hp : ¬ old <:+: p ++ old.dropLast) :
    replaceLoop old new none 0 (p ++ old ++ rest) =
      p ++ new ++ replaceLoop old new none 0 rest := by
  induction p with
  | nil => simpa using replaceLoop_append_left old new h rest
  | cons c cs ih =>
    have hc : ¬ old <:+: cs ++ old.dropLast :=
      fun hc => hp (hc.trans (List.suffix_cons c _).isInfix)
    have hnp : ¬ old <+: c :: (cs ++ old ++ rest) := by
      intro hpre
      apply hp
      have heq : (c :: cs ++ old.dropLast) ++ (old.getLast h :: rest) =
          c :: (cs ++ old ++ rest) := by
        conv_rhs => rw [← List.dropLast_append_getLast h]
        simp
      have h1 : old <+: (c :: cs ++ old.dropLast) ++ (old.getLast h :: rest) := by
        rw [heq]; exact hpre
      have h2 : old.length ≤ (c :: cs ++ old.dropLast).length := by
        have : 0 < old.length := List.length_pos.mpr h
        simp only [List.cons_append, List.length_cons, List.length_append, List.length_dropLast]
        omega
      exact (List.prefix_of_prefix_length_le h1 (List.prefix_append _ _) h2).isInfix
    have hcons : c :: cs ++ old ++ rest = c :: (cs ++ old ++ rest) := rfl
    have hpf : old.isPrefixOf (c :: (cs ++ old ++ rest)) = false := by
      rw [Bool.eq_false_iff]
      intro hh
      exact hnp (List.isPrefixOf_iff_prefix.mp hh)
    rw [hcons, replaceLoop_cons _ _ h, hpf, ih hc]
    simp

theorem replaceLoop_intercalate (old new : Str) (h : old ≠ []) (ps : List Str)
    (hps : ∀ p ∈ ps, ¬ old <:+: p ++ old.dropLast) :
    replaceLoop old new none 0 (List.intercalate old ps) = List.intercalate new ps := by
  induction ps with
  | nil => simp [List.intercalate, replaceLoop_nil]
  | cons p qs ih =>
    cases qs with
    | nil =>
      have hp : ¬ old <:+: p :=
        fun hp => hps p (by simp) (hp.trans (List.prefix_append p _).isInfix)
      simpa [List.intercalate] using replaceLoop_of_absent old new h p hp
    | cons q rest =>
      have hrec := ih (fun x hx => hps x (List.mem_cons_of_mem p hx))
      have e1 : List.intercalate old (p :: q :: rest) =
          p ++ old ++ List.intercalate old (q :: rest) := by
        simp [List.intercalate]
      have e2 : List.intercalate new (p :: q :: rest) =
          p ++ new ++ List.intercalate new (q :: rest) := by
        simp [List.intercalate]
      rw [e1, e2, replaceLoop_append_first old new h p _ (hps p (by simp)), hrec]

/-! ## Lemmas on the tree walk -/

theorem prettyPrintComments_eq (E : Env) (c : Comments) (level indentSize commentWidth : Int)
    (originalPoster parentPoster : Str) :
    prettyPrintComments E c level indentSize commentWidth originalPoster parentPoster =
      commentBlock E c level indentSize commentWidth originalPoster parentPoster ++
        prettyPrintCommentsLoop E c.Replies level indentSize commentWidth originalPoster
          (if level = 0 then c.Author else parentPoster) := by
  cases c
  simp [prettyPrintComments]

theorem prettyPrintCommentsLoop_eq (E : Env) (rs : List Comments)
    (level indentSize commentWidth : Int) (originalPoster parentPoster : Str) :
    prettyPrintCommentsLoop E rs level indentSize commentWidth originalPoster parentPoster =
      (rs.map (fun s => prettyPrintComments E s (level + 1) indentSize commentWidth
        originalPoster parentPoster)).flatten := by
  induction rs with
  | nil => simp [prettyPrintCommentsLoop]
  | cons r rest ih => simp [prettyPrintCommentsLoop, ih]

theorem printCommentTreeLoop_eq (E : Env) (indentSize commentWith : Int) (originalPoster : Str)
    (rs : List Comments) :
    printCommentTreeLoop E indentSize commentWith originalPoster rs =
      (rs.map (fun r => prettyPrintComments E r 0 indentSize commentWith
        originalPoster [])).flatten := by
  induction rs with
  | nil => simp [printCommentTreeLoop]
  | cons r rest ih => simp [printCommentTreeLoop, ih]

mutual
theorem prettyPrintComments_preOrder (E : Env) (indentSize commentWidth : Int)
    (originalPoster parentPoster q : Str) :
    ∀ (c : Comments) (level : Int), 1 ≤ level →
      prettyPrintComments E c level indentSize commentWidth originalPoster parentPoster =
        (preOrder c level).flatMap (fun x => commentBlock E x.1 x.2 indentSize commentWidth
          originalPoster (if x.2 = 0 then q else parentPoster))
  | ⟨a, t, cm, cc, tm, p, u, d, i, replies⟩, level, hl => by
    have h0 : level ≠ 0 := by omega
    have ih := prettyPrintCommentsLoop_preOrder E indentSize commentWidth originalPoster
      parentPoster q replies level (by omega)
    simp only [prettyPrintComments, preOrder, List.flatMap_cons, if_neg h0, ih]
theorem prettyPrintCommentsLoop_preOrder (E : Env) (indentSize commentWidth : Int)
    (originalPoster parentPoster q : Str) :
    ∀ (rs : List Comments) (level : Int), 0 ≤ level →
      prettyPrintCommentsLoop E rs level indentSize commentWidth originalPoster parentPoster =
        (preOrderList rs (level + 1)).flatMap (fun x => commentBlock E x.1 x.2 indentSize
          commentWidth originalPoster (if x.2 = 0 then q else parentPoster))
  | [], level, _ => by simp [prettyPrintCommentsLoop, preOrderList]
  | r :: rest, level, hl => by
    have ih1 := prettyPrintComments_preOrder E indentSize commentWidth originalPoster
      parentPoster q r (level + 1) (by omega)
    have ih2 := prettyPrintCommentsLoop_preOrder E indentSize commentWidth originalPoster
      parentPoster q rest level hl
    simp only [prettyPrintCommentsLoop, preOrderList, List.flatMap_append, ih1, ih2]
end

theorem prettyPrintComments_zero (E : Env) (indentSize commentWidth : Int)
    (originalPoster parentPoster : Str) (c : Comments) :
    prettyPrintComments E c 0 indentSize commentWidth originalPoster parentPoster =
      (preOrder c 0).flatMap (fun x => commentBlock E x.1 x.2 indentSize commentWidth
        originalPoster (if x.2 = 0 then parentPoster else c.Author)) := by
  obtain ⟨a, t, cm, cc, tm, p, u, d, i, replies⟩ := c
  have ih := prettyPrintCommentsLoop_preOrder E indentSize commentWidth originalPoster a
    parentPoster replies 0 (le_refl 0)
  simp only [prettyPrintComments, preOrder, List.flatMap_cons, if_true, ih]

mutual
theorem preOrder_length : ∀ (c : Comments) (level : Int),
    (preOrder c level).length = 1 + descendants c
  | ⟨a, t, cm, cc, tm, p, u, d, i, replies⟩, level => by
    simp only [preOrder, descendants, List.length_cons, preOrderList_length replies (level + 1)]
    omega
theorem preOrderList_length : ∀ (rs : List Comments) (level : Int),
    (preOrderList rs level).length = descendantsList rs
  | [], _ => by simp [preOrderList, descendantsList]
  | r :: rest, level => by
    simp only [preOrderList, descendantsList, List.length_append, preOrder_length r level,
      preOrderList_length rest level]
end

mutual
theorem getNumberOfReplies_add : ∀ (c : Comments) (k : Int),
    getNumberOfReplies c k = k + descendants c
  | ⟨a, t, cm, cc, tm, p, u, d, i, replies⟩, k => by
    simp only [getNumberOfReplies, descendants, getNumberOfRepliesLoop_add replies k]
theorem getNumberOfRepliesLoop_add : ∀ (rs : List Comments) (k : Int),
    getNumberOfRepliesLoop rs k = k + descendantsList rs
  | [], k => by simp [getNumberOfRepliesLoop, descendantsList]
  | r :: rest, k => by
    simp only [getNumberOfRepliesLoop, descendantsList, getNumberOfReplies_add r (k + 1),
      getNumberOfRepliesLoop_add rest _]
    push_cast
    ring
end

theorem descendantsList_eq_sum (rs : List Comments) :
    (descendantsList rs : Int) = (rs.map (fun r => 1 + getNumberOfReplies r 0)).sum := by
  induction rs with
  | nil => simp [descendantsList]
  | cons r rest ih =>
    simp only [descendantsList, List.map_cons, List.sum_cons, getNumberOfReplies_add r 0, ← ih]
    push_cast
    ring

theorem descendants_eq (c : Comments) : descendants c = descendantsList c.Replies := by
  cases c
  simp [descendants]

/-! ## Lemmas on `truncateURL` -/

theorem truncateLoop_short (cs : Str) (i : Nat) (acc : Str) (h : i + byteLen cs ≤ 60) :
    truncateLoop cs i acc = acc ++ cs := by
  induction cs generalizing i acc with
  | nil => simp [truncateLoop]
  | cons c cs ih =>
    have hpos := c.utf8Size_pos
    simp only [byteLen] at h
    have hi : i ≠ 60 := by omega
    simp only [truncateLoop, if_neg hi]
    rw [ih (i + c.utf8Size) (acc ++ [c]) (by omega)]
    simp

theorem truncateLoop_at (p : Str) (c : Char) (r : Str) (i : Nat) (acc : Str)
    (h : i + byteLen p = 60) :
    truncateLoop (p ++ c :: r) i acc = acc ++ p ++ "...".toList := by
  induction p generalizing i acc with
  | nil =>
    simp only [byteLen] at h
    have hi : i = 60 := by omega
    simp [truncateLoop, hi]
  | cons x p ih =>
    have hpos := x.utf8Size_pos
    simp only [byteLen] at h
    have hi : i ≠ 60 := by omega
    have hstep : truncateLoop (x :: p ++ c :: r) i acc =
        truncateLoop (p ++ c :: r) (i + x.utf8Size) (acc ++ [x]) := by
      simp only [List.cons_append, truncateLoop, if_neg hi]
      rfl
    rw [hstep, ih (i + x.utf8Size) (acc ++ [x]) (by omega)]
    simp

theorem byteLen_of_single (s : Str) (h : ∀ c ∈ s, c.utf8Size = 1) : byteLen s = s.length := by
  induction s with
  | nil => rfl
  | cons c cs ih =>
    simp only [byteLen, List.length_cons, h c (List.mem_cons_self c cs),
      ih (fun x hx => h x (List.mem_cons_of_mem c hx))]
    omega

theorem byteLen_append (s t : Str) : byteLen (s ++ t) = byteLen s + byteLen t := by
  induction s with
  | nil => simp [byteLen]
  | cons c cs ih => simp [byteLen, ih, Nat.add_assoc]

/-! ## Lemmas on replacing an entity by one character -/

theorem prefix_of_prefix_replaceLoop (old : Str) (c : Char) (h : old ≠ []) (s p : Str)
    (hc : c ∉ p) (hp : p <+: replaceLoop old [c] none 0 s) : p <+: s := by
  induction s generalizing p with
  | nil => simpa [replaceLoop_nil] using hp
  | cons x t ih =>
    rw [replaceLoop_cons old [c] h] at hp
    split at hp
    · rcases List.prefix_cons_iff.mp hp with h0 | ⟨q, hq, _⟩
      · subst h0
        exact List.nil_prefix
      · subst hq
        exact absurd (List.mem_cons_self c q) hc
    · rcases List.prefix_cons_iff.mp hp with h0 | ⟨q, hq, hqt⟩
      · subst h0
        exact List.nil_prefix
      · subst hq
        have hcq : c ∉ q := fun hm => hc (List.mem_cons_of_mem x hm)
        exact List.prefix_cons_iff.mpr (Or.inr ⟨q, rfl, ih q hcq hqt⟩)

theorem infix_of_infix_replaceLoop (old : Str) (c : Char) (h : old ≠ []) (p : Str)
    (hc : c ∉ p) :
    ∀ (n : Nat) (s : Str), s.length ≤ n → p <:+: replaceLoop old [c] none 0 s → p <:+: s := by
  intro n
  induction n with
  | zero =>
    intro s hn hp
    have hs : s = [] := List.length_eq_zero.mp (by omega)
    subst hs
    simpa [replaceLoop_nil] using hp
  | succ n ih =>
    intro s hn hp
    cases s with
    | nil => simpa [replaceLoop_nil] using hp
    | cons x t =>
      have hpre := prefix_of_prefix_replaceLoop old c h (x :: t) p hc
      rw [replaceLoop_cons old [c] h] at hp hpre
      split at hp
      · rename_i hm
        rw [if_pos hm] at hpre
        rcases List.infix_cons_iff.mp hp with h1 | h2
        · exact (hpre h1).isInfix
        · have hlen : (List.drop old.length (x :: t)).length ≤ n := by
            have : 0 < old.length := List.length_pos.mpr h
            simp only [List.length_drop, List.length_cons] at hn ⊢
            omega
          exact (ih _ hlen h2).trans (List.drop_suffix _ _).isInfix
      · rename_i hm
        rw [if_neg hm] at hpre
        rcases List.infix_cons_iff.mp hp with h1 | h2
        · exact (hpre h1).isInfix
        · exact (ih t (by simpa using hn) h2).trans (List.suffix_cons x t).isInfix

theorem not_infix_replaceLoop_self (old : Str) (c : Char) (h : old ≠ []) (hc : c ∉ old) :
    ∀ (n : Nat) (s : Str), s.length ≤ n → ¬ old <:+: replaceLoop old [c] none 0 s := by
  intro n
  induction n with
  | zero =>
    intro s hn hp
    have hs : s = [] := List.length_eq_zero.mp (by omega)
    subst hs
    rw [replaceLoop_nil] at hp
    exact h (List.eq_nil_of_infix_nil hp)
  | succ n ih =>
    intro s hn hp
    cases s with
    | nil =>
      rw [replaceLoop_nil] at hp
      exact h (List.eq_nil_of_infix_nil hp)
    | cons x t =>
      have hpre := prefix_of_prefix_replaceLoop old c h (x :: t) old hc
      rw [replaceLoop_cons old [c] h] at hp hpre
      split at hp
      · rename_i hm
        rcases List.infix_cons_iff.mp hp with h1 | h2
        · rcases List.prefix_cons_iff.mp h1 with h0 | ⟨q, hq, _⟩
          · exact h h0
          · exact hc (hq ▸ List.mem_cons_self c q)
        · have hlen : (List.drop old.length (x :: t)).length ≤ n := by
            have : 0 < old.length := List.length_pos.mpr h
            simp only [List.length_drop, List.length_cons] at hn ⊢
            omega
          exact ih _ hlen h2
      · rename_i hm
        rw [if_neg hm] at hpre
        rcases List.infix_cons_iff.mp hp with h1 | h2
        · exact hm (List.isPrefixOf_iff_prefix.mpr (hpre h1))
        · exact ih t (by simpa using hn) h2

theorem not_infix_ReplaceAll (s old p : Str) (c : Char) (h : old ≠ []) (hc : c ∉ p)
    (hp : ¬ p <:+: s) : ¬ p <:+: ReplaceAll s old [c] := by
  rw [ReplaceAll_eq]
  split
  · exact hp
  · exact fun hh => hp (infix_of_infix_replaceLoop old c h p hc s.length s (le_refl _) hh)

theorem not_infix_ReplaceAll_self (s old : Str) (c : Char) (h : old ≠ []) (hc : c ∉ old) :
    ¬ old <:+: ReplaceAll s old [c] := by
  rw [ReplaceAll_eq]
  split
  · rename_i he
    exact absurd (he ▸ List.mem_singleton_self c) hc
  · exact not_infix_replaceLoop_self old c h hc s.length s (le_refl _)

/-! ## Lemmas on texts without a pattern -/

theorem absent_of_not_mem (old s : Str) (c : Char) (hc : c ∈ old) (hs : c ∉ s) :
    ¬ old <:+: s :=
  fun h => hs (h.subset hc)

theorem replaceLoop_lim_of_absent (old new : Str) (lim : Option Nat) (s : Str)
    (hs : ¬ old <:+: s) : replaceLoop old new lim 0 s = s := by
  induction s with
  | nil => simp [replaceLoop_nil]
  | cons c cs ih =>
    have hp : old.isPrefixOf (c :: cs) = false := by
      rw [Bool.eq_false_iff]
      exact fun hh => hs (List.isPrefixOf_iff_prefix.mp hh).isInfix
    have hc : ¬ old <:+: cs := fun hc => hs (hc.trans (List.suffix_cons c cs).isInfix)
    rcases lim with _ | _ | n
    · simp [replaceLoop, hp, ih hc]
    · simp [replaceLoop]
    · simp [replaceLoop, hp, ih hc]

theorem Replace_of_absent (s old new : Str) (n : Int) (h : old ≠ []) (hs : ¬ old <:+: s) :
    Replace s old new n = s := by
  unfold Replace
  split
  · rfl
  · simp only [if_neg h]
    exact replaceLoop_lim_of_absent old new _ s hs

theorem matchAnchor_of_not_isPrefixOf (s : Str) (h : anchorOpen.isPrefixOf s = false) :
    matchAnchor s = none := by
  simp [matchAnchor, h]

theorem findAllAnchors_of_absent (lim : Option Nat) (s : Str) (hs : ¬ anchorOpen <:+: s) :
    findAllAnchors lim 0 s = [] := by
  induction s with
  | nil => simp [findAllAnchors]
  | cons c cs ih =>
    have hp : anchorOpen.isPrefixOf (c :: cs) = false := by
      rw [Bool.eq_false_iff]
      exact fun hh => hs (List.isPrefixOf_iff_prefix.mp hh).isInfix
    have hc : ¬ anchorOpen <:+: cs := fun hc => hs (hc.trans (List.suffix_cons c cs).isInfix)
    rcases lim with _ | _ | n
    · simp [findAllAnchors, matchAnchor_of_not_isPrefixOf _ hp, ih hc]
    · simp [findAllAnchors]
    · simp [findAllAnchors, matchAnchor_of_not_isPrefixOf _ hp, ih hc]

theorem replaceAllAnchors_of_absent (repl s : Str) (hs : ¬ anchorOpen <:+: s) :
    replaceAllAnchors repl 0 s = s := by
  induction s with
  | nil => simp [replaceAllAnchors]
  | cons c cs ih =>
    have hp : anchorOpen.isPrefixOf (c :: cs) = false := by
      rw [Bool.eq_false_iff]
      exact fun hh => hs (List.isPrefixOf_iff_prefix.mp hh).isInfix
    have hc : ¬ anchorOpen <:+: cs := fun hc => hs (hc.trans (List.suffix_cons c cs).isInfix)
    simp [replaceAllAnchors, matchAnchor_of_not_isPrefixOf _ hp, ih hc]

theorem replaceCharacters_of_no_amp (s : Str) (h : '&' ∉ s) : replaceCharacters s = s := by
  simp only [replaceCharacters]
  rw [ReplaceAll_of_absent s _ _ (by decide) (absent_of_not_mem _ s '&' (by decide) h),
    ReplaceAll_of_absent s _ _ (by decide) (absent_of_not_mem _ s '&' (by decide) h),
    ReplaceAll_of_absent s _ _ (by decide) (absent_of_not_mem _ s '&' (by decide) h),
    ReplaceAll_of_absent s _ _ (by decide) (absent_of_not_mem _ s '&' (by decide) h),
    ReplaceAll_of_absent s _ _ (by decide) (absent_of_not_mem _ s '&' (by decide) h),
    ReplaceAll_of_absent s _ _ (by decide) (absent_of_not_mem _ s '&' (by decide) h)]

theorem replaceHTML_of_no_lt (E : Env) (s : Str) (h : '<' ∉ s) : replaceHTML E s = s := by
  simp only [replaceHTML]
  rw [Replace_of_absent s _ _ 1 (by decide) (absent_of_not_mem _ s '<' (by decide) h),
    ReplaceAll_of_absent s _ _ (by decide) (absent_of_not_mem _ s '<' (by decide) h),
    ReplaceAll_of_absent s _ _ (by decide) (absent_of_not_mem _ s '<' (by decide) h),
    ReplaceAll_of_absent s _ _ (by decide) (absent_of_not_mem _ s '<' (by decide) h),
    ReplaceAll_of_absent s _ _ (by decide) (absent_of_not_mem _ s '<' (by decide) h),
    ReplaceAll_of_absent s _ _ (by decide) (absent_of_not_mem _ s '<' (by decide) h),
    ReplaceAll_of_absent s _ _ (by decide) (absent_of_not_mem _ s '<' (by decide) h)]

theorem colorizeLinkNumbers_of_no_bracket (E : Env) (s : Str) (h : '[' ∉ s) :
    colorizeLinkNumbers E s = s := by
  simp only [colorizeLinkNumbers]
  rw [ReplaceAll_of_absent s _ _ (by decide) (absent_of_not_mem _ s '[' (by decide) h),
    ReplaceAll_of_absent s _ _ (by decide) (absent_of_not_mem _ s '[' (by decide) h),
    ReplaceAll_of_absent s _ _ (by decide) (absent_of_not_mem _ s '[' (by decide) h),
    ReplaceAll_of_absent s _ _ (by decide) (absent_of_not_mem _ s '[' (by decide) h),
    ReplaceAll_of_absent s _ _ (by decide) (absent_of_not_mem _ s '[' (by decide) h),
    ReplaceAll_of_absent s _ _ (by decide) (absent_of_not_mem _ s '[' (by decide) h),
    ReplaceAll_of_absent s _ _ (by decide) (absent_of_not_mem _ s '[' (by decide) h),
    ReplaceAll_of_absent s _ _ (by decide) (absent_of_not_mem _ s '[' (by decide) h),
    ReplaceAll_of_absent s _ _ (by decide) (absent_of_not_mem _ s '[' (by decide) h),
    ReplaceAll_of_absent s _ _ (by decide) (absent_of_not_mem _ s '[' (by decide) h),
    ReplaceAll_of_absent s _ _ (by decide) (absent_of_not_mem _ s '[' (by decide) h)]

/-! ## Lemmas on `replaceHTML` and on the replacement of the empty string -/

theorem replaceLoop_zero (old new : Str) (s : Str) : replaceLoop old new (some 0) 0 s = s := by
  cases s <;> simp [replaceLoop]

theorem replaceLoop_one_append_first (old new : Str) (h : old ≠ []) (p rest : Str)
    (hp : ¬ old <:+: p ++ old.dropLast) :
    replaceLoop old new (some 1) 0 (p ++ old ++ rest) = p ++ new ++ rest := by
  induction p with
  | nil =>
    obtain ⟨c, cs, rfl⟩ := List.exists_cons_of_ne_nil h
    have hpre : (c :: cs).isPrefixOf (c :: (cs ++ rest)) = true := by
      rw [List.isPrefixOf_iff_prefix]
      exact List.prefix_append (c :: cs) rest
    have hdrop : List.drop cs.length (cs ++ rest) = rest := List.drop_left cs rest
    have e : [] ++ (c :: cs) ++ rest = c :: (cs ++ rest) := rfl
    rw [e]
    simp only [replaceLoop, hpre, if_true, Option.map_some', List.length_cons,
      Nat.add_sub_cancel]
    rw [replaceLoop_skip, hdrop, replaceLoop_zero]
    rfl
  | cons c cs ih =>
    have hc : ¬ old <:+: cs ++ old.dropLast :=
      fun hc => hp (hc.trans (List.suffix_cons c _).isInfix)
    have hpf : old.isPrefixOf (c :: (cs ++ old ++ rest)) = false := by
      rw [Bool.eq_false_iff]
      intro hh
      apply hp
      have hpre := List.isPrefixOf_iff_prefix.mp hh
      have heq : (c :: cs ++ old.dropLast) ++ (old.getLast h :: rest) =
          c :: (cs ++ old ++ rest) := by
        conv_rhs => rw [← List.dropLast_append_getLast h]
        simp
      have h1 : old <+: (c :: cs ++ old.dropLast) ++ (old.getLast h :: rest) := by
        rw [heq]; exact hpre
      have h2 : old.length ≤ (c :: cs ++ old.dropLast).length := by
        have : 0 < old.length := List.length_pos.mpr h
        simp only [List.cons_append, List.length_cons, List.length_append, List.length_dropLast]
        omega
      exact (List.prefix_of_prefix_length_le h1 (List.prefix_append _ _) h2).isInfix
    have hcons : c :: cs ++ old ++ rest = c :: (cs ++ old ++ rest) := rfl
    rw [hcons]
    simp only [replaceLoop, hpf]
    rw [ih hc]
    simp

theorem infix_of_infix_append (old a b : Str) (c : Char) (tl : Str) (ho : old = c :: tl)
    (hc : c ∉ a) (h : old <:+: a ++ b) : old <:+: b := by
  induction a with
  | nil => simpa using h
  | cons x a ih =>
    rcases List.infix_cons_iff.mp h with h1 | h2
    · rcases List.prefix_cons_iff.mp h1 with h0 | ⟨q, hq, _⟩
      · rw [ho] at h0
        exact absurd h0 (by simp)
      · rw [ho] at hq
        have : c = x := (List.cons.inj hq).1
        exact absurd (this ▸ List.mem_cons_self x a) hc
    · exact ih (fun hm => hc (List.mem_cons_of_mem x hm)) h2

theorem mem_intercalate (sep : Str) (ps : List Str) (c : Char)
    (h : c ∈ List.intercalate sep ps) : c ∈ sep ∨ ∃ p ∈ ps, c ∈ p := by
  induction ps with
  | nil => simp [List.intercalate] at h
  | cons p qs ih =>
    cases qs with
    | nil =>
      right
      exact ⟨p, by simp, by simpa [List.intercalate] using h⟩
    | cons q rest =>
      have e : List.intercalate sep (p :: q :: rest) =
          p ++ sep ++ List.intercalate sep (q :: rest) := by
        simp [List.intercalate]
      rw [e, List.mem_append, List.mem_append] at h
      rcases h with (h | h) | h
      · exact Or.inr ⟨p, by simp, h⟩
      · exact Or.inl h
      · rcases ih h with h | ⟨x, hx, hcx⟩
        · exact Or.inl h
        · exact Or.inr ⟨x, List.mem_cons_of_mem p hx, hcx⟩

theorem replaceEmpty_none (new s : Str) :
    replaceEmpty new none s = new ++ s.flatMap (fun c => c :: new) := by
  induction s with
  | nil => simp [replaceEmpty]
  | cons c cs ih => simp [replaceEmpty, ih]

theorem paragraph_absent (p : Str) (h : '<' ∉ p) :
    ¬ "<p>".toList <:+: p ++ "<p>".toList.dropLast := by
  intro hh
  have := infix_of_infix_append "<p>".toList p _ '<' "p>".toList rfl h hh
  exact absurd this (by decide)

theorem replaceHTML_two_pieces (E : Env) (p0 : Str) (p1 : Str) (rest : List Str)
    (hD : '<' ∉ E.DoubleNewLine) (hp0 : '<' ∉ p0) (hps : ∀ p ∈ p1 :: rest, '<' ∉ p) :
    replaceHTML E (List.intercalate "<p>".toList (p0 :: p1 :: rest)) =
      p0 ++ List.intercalate E.DoubleNewLine (p1 :: rest) := by
  have hne : "<p>".toList ≠ [] := by decide
  have hp1 : '<' ∉ p1 := hps p1 (by simp)
  have e0 : List.intercalate "<p>".toList (p0 :: p1 :: rest) =
      p0 ++ "<p>".toList ++ List.intercalate "<p>".toList (p1 :: rest) := by
    simp [List.intercalate]
  -- the first occurrence is deleted
  have s1 : Replace (List.intercalate "<p>".toList (p0 :: p1 :: rest)) "<p>".toList [] 1 =
      List.intercalate "<p>".toList ((p0 ++ p1) :: rest) := by
    have hlim : (if (1 : Int) < 0 then (none : Option Nat) else some (1 : Int).toNat) = some 1 := by
      decide
    have hg : ¬ ("<p>".toList = ([] : Str) ∨ (1 : Int) = 0) := by decide
    unfold Replace
    rw [if_neg hg]
    simp only [hlim, if_neg hne]
    rw [e0, replaceLoop_one_append_first _ _ hne p0 _ (paragraph_absent p0 hp0)]
    cases rest <;> simp [List.intercalate]
  -- the further occurrences become double line breaks
  have hpieces : ∀ p ∈ (p0 ++ p1) :: rest, ¬ "<p>".toList <:+: p ++ "<p>".toList.dropLast := by
    intro p hp
    apply paragraph_absent
    rcases List.mem_cons.mp hp with h | h
    · subst h
      simp [hp0, hp1]
    · exact hps p (List.mem_cons_of_mem p1 h)
  have s2 : ReplaceAll (List.intercalate "<p>".toList ((p0 ++ p1) :: rest)) "<p>".toList
      E.DoubleNewLine = p0 ++ List.intercalate E.DoubleNewLine (p1 :: rest) := by
    have hneq : "<p>".toList ≠ E.DoubleNewLine := by
      intro he
      apply hD
      rw [← he]
      decide
    rw [ReplaceAll_eq, if_neg hneq, if_neg hne, replaceLoop_intercalate _ _ hne _ hpieces]
    cases rest <;> simp [List.intercalate]
  -- nothing is left for the other markup
  have hres : '<' ∉ p0 ++ List.intercalate E.DoubleNewLine (p1 :: rest) := by
    intro hm
    rcases List.mem_append.mp hm with h | h
    · exact hp0 h
    · rcases mem_intercalate _ _ _ h with h | ⟨x, hx, hcx⟩
      · exact hD h
      · exact hps x hx hcx
  simp only [replaceHTML, s1, s2]
  rw [ReplaceAll_of_absent _ _ _ (by decide) (absent_of_not_mem _ _ '<' (by decide) hres),
    ReplaceAll_of_absent _ _ _ (by decide) (absent_of_not_mem _ _ '<' (by decide) hres),
    ReplaceAll_of_absent _ _ _ (by decide) (absent_of_not_mem _ _ '<' (by decide) hres),
    ReplaceAll_of_absent _ _ _ (by decide) (absent_of_not_mem _ _ '<' (by decide) hres),
    ReplaceAll_of_absent _ _ _ (by decide) (absent_of_not_mem _ _ '<' (by decide) hres)]

/-! ## Lemmas on the anchor expression -/

theorem isPrefixOf_false_of_absent (old : Str) (h : old ≠ []) (c : Char) (cs rest : Str)
    (hp : ¬ old <:+: (c :: cs) ++ old.dropLast) :
    old.isPrefixOf (c :: (cs ++ old ++ rest)) = false := by
  rw [Bool.eq_false_iff]
  intro hh
  apply hp
  have hpre := List.isPrefixOf_iff_prefix.mp hh
  have heq : (c :: cs ++ old.dropLast) ++ (old.getLast h :: rest) =
      c :: (cs ++ old ++ rest) := by
    conv_rhs => rw [← List.dropLast_append_getLast h]
    simp
  have h1 : old <+: (c :: cs ++ old.dropLast) ++ (old.getLast h :: rest) := by
    rw [heq]; exact hpre
  have h2 : old.length ≤ (c :: cs ++ old.dropLast).length := by
    have : 0 < old.length := List.length_pos.mpr h
    simp only [List.cons_append, List.length_cons, List.length_append, List.length_dropLast]
    omega
  exact (List.prefix_of_prefix_length_le h1 (List.prefix_append _ _) h2).isInfix

theorem findAllAnchors_nil (lim : Option Nat) (k : Nat) : findAllAnchors lim k [] = [] := by
  cases k <;> cases lim <;> simp [findAllAnchors]

theorem findAllAnchors_skip (lim : Option Nat) (k : Nat) (s : Str) :
    findAllAnchors lim k s = findAllAnchors lim 0 (s.drop k) := by
  induction s generalizing k with
  | nil => simp [findAllAnchors_nil]
  | cons c cs ih =>
    cases k with
    | zero => simp
    | succ k => simp [findAllAnchors, ih k]

theorem findAllAnchors_zero (k : Nat) (s : Str) : findAllAnchors (some 0) k s = [] := by
  induction s generalizing k with
  | nil => simp [findAllAnchors_nil]
  | cons c cs ih =>
    cases k with
    | zero => simp [findAllAnchors]
    | succ k => simp [findAllAnchors, ih k]

theorem findAllAnchors_length_le (n k : Nat) (s : Str) :
    (findAllAnchors (some n) k s).length ≤ n := by
  induction s generalizing n k with
  | nil => simp [findAllAnchors_nil]
  | cons c cs ih =>
    cases k with
    | succ k => simpa [findAllAnchors] using ih n k
    | zero =>
      cases n with
      | zero => simp [findAllAnchors]
      | succ n =>
        simp only [findAllAnchors]
        split
        · simp only [Option.map_some', Nat.add_sub_cancel, List.length_cons]
          exact Nat.succ_le_succ (ih n _)
        · exact ih (n + 1) 0

theorem findAllAnchors_take (n k : Nat) (s : Str) :
    findAllAnchors (some n) k s = (findAllAnchors none k s).take n := by
  induction s generalizing n k with
  | nil => simp [findAllAnchors_nil]
  | cons c cs ih =>
    cases k with
    | succ k => simpa [findAllAnchors] using ih n k
    | zero =>
      cases n with
      | zero => simp [findAllAnchors]
      | succ n =>
        simp only [findAllAnchors]
        split
        · simp only [Option.map_some', Nat.add_sub_cancel, Option.map_none', List.take_succ_cons]
          rw [ih n _]
        · exact ih (n + 1) 0

theorem matchLazyClose_target (u rest : Str) (hn : '\n' ∉ u)
    (hc : ¬ anchorClose <:+: u ++ anchorClose.dropLast) :
    matchLazyClose (u ++ anchorClose ++ rest) = some u.length := by
  induction u with
  | nil =>
    have e : [] ++ anchorClose ++ rest = '"' :: (" rel=\"nofollow\">".toList ++ rest) := rfl
    have hpre : anchorClose.isPrefixOf ('"' :: (" rel=\"nofollow\">".toList ++ rest)) = true := by
      rw [List.isPrefixOf_iff_prefix]
      exact List.prefix_append anchorClose rest
    rw [e]
    simp only [matchLazyClose, hpre, if_true, List.length_nil]
  | cons x u ih =>
    have hx : x ≠ '\n' := fun h => hn (h ▸ List.mem_cons_self x u)
    have hpf := isPrefixOf_false_of_absent anchorClose (by decide) x u rest hc
    have hu : ¬ anchorClose <:+: u ++ anchorClose.dropLast :=
      fun h => hc (h.trans (List.suffix_cons x _).isInfix)
    have e : x :: u ++ anchorClose ++ rest = x :: (u ++ anchorClose ++ rest) := rfl
    rw [e]
    simp only [matchLazyClose, hpf, hx, if_false, Bool.false_eq_true]
    rw [ih (fun h => hn (List.mem_cons_of_mem x h)) hu]
    simp

theorem matchAnchor_tag (u rest : Str) (hn : '\n' ∉ u)
    (hc : ¬ anchorClose <:+: u ++ anchorClose.dropLast) :
    matchAnchor (anchorTag u ++ rest) = some (anchorTag u).length := by
  have e : anchorTag u ++ rest = anchorOpen ++ (u ++ anchorClose ++ rest) := by
    simp [anchorTag]
  have hpre : anchorOpen.isPrefixOf (anchorOpen ++ (u ++ anchorClose ++ rest)) = true := by
    rw [List.isPrefixOf_iff_prefix]
    exact List.prefix_append _ _
  rw [matchAnchor, e, if_pos hpre, List.drop_left, matchLazyClose_target u rest hn hc]
  simp [anchorTag, Nat.add_assoc]

theorem findAllAnchors_cons_match (lim : Option Nat) (hlim : lim ≠ some 0) (c : Char) (cs : Str)
    (k : Nat) (hk : matchAnchor (c :: cs) = some (k + 1)) :
    findAllAnchors lim 0 (c :: cs) =
      (c :: cs).take (k + 1) ::
        findAllAnchors (lim.map (fun n => n - 1)) 0 ((c :: cs).drop (k + 1)) := by
  rcases lim with _ | _ | n
  · simp only [findAllAnchors, hk, Option.map_none', Nat.add_sub_cancel, List.drop_succ_cons]
    rw [findAllAnchors_skip]
  · exact absurd rfl hlim
  · simp only [findAllAnchors, hk, Option.map_some', Nat.add_sub_cancel, List.drop_succ_cons]
    rw [findAllAnchors_skip]

theorem findAllAnchors_tag (lim : Option Nat) (hlim : lim ≠ some 0) (u rest : Str)
    (hn : '\n' ∉ u) (hc : ¬ anchorClose <:+: u ++ anchorClose.dropLast) :
    findAllAnchors lim 0 (anchorTag u ++ rest) =
      anchorTag u :: findAllAnchors (lim.map (fun n => n - 1)) 0 rest := by
  have hm := matchAnchor_tag u rest hn hc
  obtain ⟨c, cs, hs⟩ : ∃ c cs, anchorTag u ++ rest = c :: cs :=
    ⟨'<', "a href=\"".toList ++ u ++ anchorClose ++ rest, by simp [anchorTag, anchorOpen]⟩
  obtain ⟨k, hk⟩ : ∃ k, (anchorTag u).length = k + 1 :=
    ⟨8 + u.length + anchorClose.length, by simp [anchorTag, anchorOpen]; omega⟩
  rw [hs] at hm
  rw [hk] at hm
  rw [hs, findAllAnchors_cons_match lim hlim c cs k hm, ← hs, ← hk, List.take_left,
    List.drop_left]

theorem findAllAnchors_piece (lim : Option Nat) (p rest : Str)
    (hp : ¬ anchorOpen <:+: p ++ anchorOpen.dropLast) :
    findAllAnchors lim 0 (p ++ anchorOpen ++ rest) =
      findAllAnchors lim 0 (anchorOpen ++ rest) := by
  induction p with
  | nil => rfl
  | cons c cs ih =>
    have hpf := isPrefixOf_false_of_absent anchorOpen (by decide) c cs rest hp
    have hc : ¬ anchorOpen <:+: cs ++ anchorOpen.dropLast :=
      fun h => hp (h.trans (List.suffix_cons c _).isInfix)
    have e : c :: cs ++ anchorOpen ++ rest = c :: (cs ++ anchorOpen ++ rest) := rfl
    rw [e]
    rcases lim with _ | _ | n
    · simp only [findAllAnchors, matchAnchor_of_not_isPrefixOf _ hpf]
      exact ih hc
    · rw [findAllAnchors_zero, findAllAnchors_zero]
    · simp only [findAllAnchors, matchAnchor_of_not_isPrefixOf _ hpf]
      exact ih hc

theorem findAllAnchors_withAnchors (tags : List (Str × Str)) :
    ∀ p0 : Str, ¬ anchorOpen <:+: p0 ++ anchorOpen.dropLast →
      (∀ x ∈ tags, '\n' ∉ x.1 ∧ ¬ anchorClose <:+: x.1 ++ anchorClose.dropLast ∧
        ¬ anchorOpen <:+: x.2 ++ anchorOpen.dropLast) →
      findAllAnchors none 0 (withAnchors p0 tags) = tags.map (fun x => anchorTag x.1) := by
  induction tags with
  | nil =>
    intro p0 hp0 _
    have h0 : ¬ anchorOpen <:+: p0 :=
      fun h => hp0 (h.trans (List.prefix_append p0 _).isInfix)
    simpa [withAnchors] using findAllAnchors_of_absent none p0 h0
  | cons x ts ih =>
    intro p0 hp0 hts
    obtain ⟨hn, hc, hp⟩ := hts x (List.mem_cons_self x ts)
    have e : withAnchors p0 (x :: ts) =
        p0 ++ anchorOpen ++ (x.1 ++ anchorClose ++ withAnchors x.2 ts) := by
      simp [withAnchors, anchorTag]
    have e2 : anchorOpen ++ (x.1 ++ anchorClose ++ withAnchors x.2 ts) =
        anchorTag x.1 ++ withAnchors x.2 ts := by
      simp [anchorTag]
    rw [e, findAllAnchors_piece none p0 _ hp0, e2,
      findAllAnchors_tag none (by simp) x.1 _ hn hc]
    simp only [Option.map_none', List.map_cons]
    rw [ih x.2 hp (fun y hy => hts y (List.mem_cons_of_mem x hy))]

theorem strip_anchorTag (u : Str) (hc : ¬ anchorClose <:+: u ++ anchorClose.dropLast)
    (ho : ¬ anchorOpen <:+: u ++ anchorClose) :
    ReplaceAll (ReplaceAll (anchorTag u) anchorOpen []) anchorClose [] = u := by
  have hno : anchorOpen ≠ [] := by decide
  have hnc : anchorClose ≠ [] := by decide
  have s1 : ReplaceAll (anchorTag u) anchorOpen [] = u ++ anchorClose := by
    rw [ReplaceAll_eq, if_neg hno, if_neg hno]
    have e : anchorTag u = anchorOpen ++ (u ++ anchorClose) := by simp [anchorTag]
    rw [e, replaceLoop_append_left _ _ hno, replaceLoop_of_absent _ _ hno _ ho]
    rfl
  have s2 : ReplaceAll (u ++ anchorClose) anchorClose [] = u := by
    rw [ReplaceAll_eq, if_neg hnc, if_neg hnc]
    have := replaceLoop_append_first anchorClose [] hnc u [] hc
    simpa [replaceLoop_nil] using this
  rw [s1, s2]

theorem extractURLs_withAnchors (p0 : Str) (tags : List (Str × Str))
    (hp0 : ¬ anchorOpen <:+: p0 ++ anchorOpen.dropLast)
    (hts : ∀ x ∈ tags, '\n' ∉ x.1 ∧ ¬ anchorClose <:+: x.1 ++ anchorClose.dropLast ∧
      ¬ anchorOpen <:+: x.1 ++ anchorClose ∧ ¬ anchorOpen <:+: x.2 ++ anchorOpen.dropLast) :
    extractURLs (withAnchors p0 tags) = (tags.map (fun x => x.1)).take 10 := by
  have hfind := findAllAnchors_withAnchors tags p0 hp0
    (fun x hx => ⟨(hts x hx).1, (hts x hx).2.1, (hts x hx).2.2.2⟩)
  simp only [extractURLs]
  rw [findAllAnchors_take, hfind, ← List.map_take, ← List.map_take, List.map_map]
  apply List.map_congr_left
  intro x hx
  have hx' := hts x (List.mem_of_mem_take hx)
  exact strip_anchorTag x.1 hx'.2.1 hx'.2.2.1

/-! ## Lemmas on the 64-bit arithmetic -/

theorem wrap64_of_isInt64 (x : Int) (h : isInt64 x) : wrap64 x = x := by
  obtain ⟨h1, h2⟩ := h
  unfold wrap64
  omega

theorem isInt64_wrap64 (x : Int) : isInt64 (wrap64 x) := by
  unfold wrap64
  constructor <;> omega

theorem max_eq_max (x y : Int) : max x y = Max.max x y := by
  unfold max
  split
  · rw [max_eq_right]; omega
  · rw [max_eq_left]; omega

/-! ## The block and the heading of one comment -/

theorem commentBlock_eq (E : Env) (c : Comments) (level indentSize commentWidth : Int)
    (originalPoster parentPoster : Str) :
    commentBlock E c level indentSize commentWidth originalPoster parentPoster =
      applyURLs E
        (E.Wrap (getCommentHeading E c level commentWidth originalPoster parentPoster)
            (getAdjustedCommentWidth E.terminalWidth level indentSize commentWidth)
            (some (getIndentBlockWithoutBar level indentSize)) ++
          E.Wrap (parseComment E c.Comment).1
            (getAdjustedCommentWidth E.terminalWidth level indentSize commentWidth)
            (some (getIndentBlock E level indentSize)) ++
          E.DoubleNewLine)
        (parseComment E c.Comment).2 := rfl

theorem getCommentHeading_eq (E : Env) (c : Comments) (level commentWidth : Int)
    (originalPoster parentPoster : Str) :
    getCommentHeading E c level commentWidth originalPoster parentPoster =
      if level = 0 then
        (labelAuthor E c.Author originalPoster parentPoster ++ " ".toList) ++
          E.underline (E.dimmed c.Time) ++
          E.underline (getReplies E level (getNumberOfReplies c 0)) ++
          getUnderlineString E
            (labelAuthor E c.Author originalPoster parentPoster ++ " ".toList)
            (E.underline (E.dimmed c.Time))
            (E.underline (getReplies E level (getNumberOfReplies c 0))) commentWidth ++
          E.NewLine
      else
        (labelAuthor E c.Author originalPoster parentPoster ++ " ".toList) ++
          E.dimmed c.Time ++ getReplies E level (getNumberOfReplies c 0) ++ E.NewLine := by
  unfold getCommentHeading
  split <;> simp

/-! ## Lemmas on `applyURLs` with several URLs -/

theorem ReplaceAll_first_only (old new : Str) (h : old ≠ []) (done rest : Str)
    (hd : ¬ old <:+: done ++ old.dropLast) (hr : ¬ old <:+: rest) :
    ReplaceAll (done ++ old ++ rest) old new = done ++ new ++ rest := by
  rw [ReplaceAll_eq]
  split
  · rename_i he
    rw [← he]
  · rw [replaceLoop_append_first old new h done rest hd,
      replaceLoop_of_absent old new h rest hr]

theorem applyURLs_linksApart (E : Env) (tags : List (Str × Str)) :
    ∀ done : Str, linksApart E done tags = true →
      applyURLs E (done ++ shownLinks tags) (tags.map (fun x => x.1)) =
        done ++ wrappedLinks E tags := by
  induction tags with
  | nil =>
    intro done _
    simp [shownLinks, wrappedLinks, applyURLs]
  | cons x ts ih =>
    intro done h
    simp only [linksApart, Bool.and_eq_true, decide_eq_true_eq] at h
    obtain ⟨⟨⟨h1, h2⟩, h3⟩, h4⟩ := h
    have e1 : done ++ shownLinks (x :: ts) =
        done ++ truncateURL x.1 ++ (x.2 ++ shownLinks ts) := by
      simp [shownLinks]
    have e2 : done ++ wrappedLinks E (x :: ts) =
        (done ++ getHyperlinkText E x.1 (truncateURL x.1) ++ x.2) ++ wrappedLinks E ts := by
      simp [wrappedLinks]
    have e3 : done ++ getHyperlinkText E x.1 (truncateURL x.1) ++ (x.2 ++ shownLinks ts) =
        (done ++ getHyperlinkText E x.1 (truncateURL x.1) ++ x.2) ++ shownLinks ts := by
      simp
    simp only [List.map_cons, applyURLs]
    rw [e1, ReplaceAll_first_only _ _ h1 done _ h2 h3, e3, ih _ h4, e2]

/-! ## Lemmas on replacing `&amp;` -/

theorem prefix_replaceLoop_cases (old : Str) (c : Char) (tail : Str) (h : old ≠ [])
    (hc : c ∉ tail) (s : Str) (hp : c :: tail <+: replaceLoop old [c] none 0 s) :
    c :: tail <+: s ∨ old ++ tail <+: s := by
  cases s with
  | nil =>
    rw [replaceLoop_nil] at hp
    exact absurd (List.eq_nil_of_prefix_nil hp) (by simp)
  | cons x t =>
    rw [replaceLoop_cons old [c] h] at hp
    split at hp
    · rename_i hm
      right
      rcases List.prefix_cons_iff.mp hp with h0 | ⟨q, hq, hqr⟩
      · exact absurd h0 (by simp)
      · have hqt : q = tail := ((List.cons.inj hq).2).symm
        subst hqt
        have htl := prefix_of_prefix_replaceLoop old c h _ q hc hqr
        obtain ⟨r, hr⟩ := List.isPrefixOf_iff_prefix.mp hm
        have hdrop : List.drop old.length (x :: t) = r := by
          rw [← hr, List.drop_left]
        rw [hdrop] at htl
        rw [← hr]
        exact (List.prefix_append_right_inj old).mpr htl
    · left
      rcases List.prefix_cons_iff.mp hp with h0 | ⟨q, hq, hqr⟩
      · exact absurd h0 (by simp)
      · have hcx : c = x := (List.cons.inj hq).1
        have hqt : q = tail := ((List.cons.inj hq).2).symm
        subst hcx hqt
        exact List.prefix_cons_iff.mpr
          (Or.inr ⟨q, rfl, prefix_of_prefix_replaceLoop old c h t q hc hqr⟩)

theorem infix_replaceLoop_cases (old : Str) (c : Char) (tail : Str) (h : old ≠ [])
    (hc : c ∉ tail) :
    ∀ (n : Nat) (s : Str), s.length ≤ n → c :: tail <:+: replaceLoop old [c] none 0 s →
      c :: tail <:+: s ∨ old ++ tail <:+: s := by
  intro n
  induction n with
  | zero =>
    intro s hn hp
    have hs : s = [] := List.length_eq_zero.mp (by omega)
    subst hs
    rw [replaceLoop_nil] at hp
    exact absurd (List.eq_nil_of_infix_nil hp) (by simp)
  | succ n ih =>
    intro s hn hp
    cases s with
    | nil =>
      rw [replaceLoop_nil] at hp
      exact absurd (List.eq_nil_of_infix_nil hp) (by simp)
    | cons x t =>
      have hpre := prefix_replaceLoop_cases old c tail h hc (x :: t)
      rw [replaceLoop_cons old [c] h] at hp hpre
      split at hp
      · rename_i hm
        rw [if_pos hm] at hpre
        rcases List.infix_cons_iff.mp hp with h1 | h2
        · rcases hpre h1 with h3 | h3
          · exact Or.inl h3.isInfix
          · exact Or.inr h3.isInfix
        · have hlen : (List.drop old.length (x :: t)).length ≤ n := by
            have : 0 < old.length := List.length_pos.mpr h
            simp only [List.length_drop, List.length_cons] at hn ⊢
            omega
          rcases ih _ hlen h2 with h3 | h3
          · exact Or.inl (h3.trans (List.drop_suffix _ _).isInfix)
          · exact Or.inr (h3.trans (List.drop_suffix _ _).isInfix)
      · rename_i hm
        rw [if_neg hm] at hpre
        rcases List.infix_cons_iff.mp hp with h1 | h2
        · rcases hpre h1 with h3 | h3
          · exact Or.inl h3.isInfix
          · exact Or.inr h3.isInfix
        · rcases ih t (by simpa using hn) h2 with h3 | h3
          · exact Or.inl (h3.trans (List.suffix_cons x t).isInfix)
          · exact Or.inr (h3.trans (List.suffix_cons x t).isInfix)

theorem not_infix_replaceLoop_old (c : Char) (tail : Str) (hc : c ∉ tail) :
    ∀ (n : Nat) (s : Str), s.length ≤ n → ¬ (c :: tail) ++ tail <:+: s →
      ¬ c :: tail <:+: replaceLoop (c :: tail) [c] none 0 s := by
  have h : c :: tail ≠ [] := by simp
  intro n
  induction n with
  | zero =>
    intro s hn _ hp
    have hs : s = [] := List.length_eq_zero.mp (by omega)
    subst hs
    rw [replaceLoop_nil] at hp
    exact absurd (List.eq_nil_of_infix_nil hp) (by simp)
  | succ n ih =>
    intro s hn hs hp
    cases s with
    | nil =>
      rw [replaceLoop_nil] at hp
      exact absurd (List.eq_nil_of_infix_nil hp) (by simp)
    | cons x t =>
      have hpre := prefix_replaceLoop_cases (c :: tail) c tail h hc (x :: t)
      rw [replaceLoop_cons (c :: tail) [c] h] at hp hpre
      split at hp
      · rename_i hm
        rw [if_pos hm] at hpre
        rcases List.infix_cons_iff.mp hp with h1 | h2
        · rcases hpre h1 with h3 | h3
          · have h4 : c :: tail <+: (c :: tail) ++ tail := List.prefix_append _ _
            -- the prefix case gives an occurrence of `old ++ tail` through the tail
            rcases List.prefix_cons_iff.mp h1 with h0 | ⟨q, hq, hqr⟩
            · exact absurd h0 (by simp)
            · have hqt : q = tail := ((List.cons.inj hq).2).symm
              subst hqt
              have htl := prefix_of_prefix_replaceLoop (c :: q) c h _ q hc hqr
              obtain ⟨r, hr⟩ := List.isPrefixOf_iff_prefix.mp hm
              have hdrop : List.drop (c :: q).length (x :: t) = r := by
                rw [← hr, List.drop_left]
              rw [hdrop] at htl
              apply hs
              rw [← hr]
              exact ((List.prefix_append_right_inj (c :: q)).mpr htl).isInfix
          · exact hs h3.isInfix
        · have hlen : (List.drop (c :: tail).length (x :: t)).length ≤ n := by
            simp only [List.length_drop, List.length_cons] at hn ⊢
            omega
          exact ih _ hlen (fun hh => hs (hh.trans (List.drop_suffix _ _).isInfix)) h2
      · rename_i hm
        rw [if_neg hm] at hpre
        rcases List.infix_cons_iff.mp hp with h1 | h2
        · rcases hpre h1 with h3 | h3
          · exact hm (List.isPrefixOf_iff_prefix.mpr h3)
          · exact hs h3.isInfix
        · exact ih t (by simpa using hn)
            (fun hh => hs (hh.trans (List.suffix_cons x t).isInfix)) h2

theorem infix_ReplaceAll_cases (s old tail : Str) (c : Char) (h : old ≠ []) (hc : c ∉ tail)
    (hp : c :: tail <:+: ReplaceAll s old [c]) : c :: tail <:+: s ∨ old ++ tail <:+: s := by
  rw [ReplaceAll_eq] at hp
  split at hp
  · exact Or.inl hp
  · exact infix_replaceLoop_cases old c tail h hc s.length s (le_refl _) hp

theorem not_infix_ReplaceAll_old (s tail : Str) (c : Char) (hc : c ∉ tail)
    (hs : ¬ (c :: tail) ++ tail <:+: s) : ¬ c :: tail <:+: ReplaceAll s (c :: tail) [c] := by
  have h : c :: tail ≠ [] := by simp
  rw [ReplaceAll_eq]
  split
  · rename_i he
    have ht : tail = [] := (List.cons.inj he).2
    subst ht
    simpa using hs
  · exact not_infix_replaceLoop_old c tail hc s.length s (le_refl _) hs

theorem absent_after_five (s q : Str) (h1 : '\'' ∉ q) (h2 : '>' ∉ q) (h3 : '<' ∉ q)
    (h4 : '/' ∉ q) (h5 : '"' ∉ q) (hq : ¬ q <:+: s) :
    ¬ q <:+: ReplaceAll (ReplaceAll (ReplaceAll (ReplaceAll (ReplaceAll s
      "&#x27;".toList "'".toList) "&gt;".toList ">".toList) "&lt;".toList "<".toList)
      "&#x2F;".toList "/".toList) "&quot;".toList "\"".toList :=
  not_infix_ReplaceAll _ _ _ '"' (by decide) h5
    (not_infix_ReplaceAll _ _ _ '/' (by decide) h4
      (not_infix_ReplaceAll _ _ _ '<' (by decide) h3
        (not_infix_ReplaceAll _ _ _ '>' (by decide) h2
          (not_infix_ReplaceAll _ _ _ '\'' (by decide) h1 hq))))

/-! ## The two statements of `replaceHTML` for `<p>` -/

theorem intercalate_cons_append (sep a b : Str) (rest : List Str) :
    List.intercalate sep ((a ++ b) :: rest) = a ++ List.intercalate sep (b :: rest) := by
  cases rest <;> simp [List.intercalate]

theorem paragraph_stage (D : Str) (p0 p1 : Str) (rest : List Str)
    (h0 : ¬ "<p>".toList <:+: p0 ++ "<p".toList)
    (h1 : ¬ "<p>".toList <:+: (p0 ++ p1) ++ "<p".toList)
    (hr : ∀ p ∈ rest, ¬ "<p>".toList <:+: p ++ "<p".toList) :
    ReplaceAll (Replace (List.intercalate "<p>".toList (p0 :: p1 :: rest)) "<p>".toList [] 1)
      "<p>".toList D = p0 ++ List.intercalate D (p1 :: rest) := by
  have hne : "<p>".toList ≠ [] := by decide
  have e0 : List.intercalate "<p>".toList (p0 :: p1 :: rest) =
      p0 ++ "<p>".toList ++ List.intercalate "<p>".toList (p1 :: rest) := by
    simp [List.intercalate]
  have s1 : Replace (List.intercalate "<p>".toList (p0 :: p1 :: rest)) "<p>".toList [] 1 =
      List.intercalate "<p>".toList ((p0 ++ p1) :: rest) := by
    have hlim : (if (1 : Int) < 0 then (none : Option Nat) else some (1 : Int).toNat) = some 1 := by
      decide
    have hg : ¬ ("<p>".toList = ([] : Str) ∨ (1 : Int) = 0) := by decide
    unfold Replace
    rw [if_neg hg]
    simp only [hlim, if_neg hne]
    rw [e0, replaceLoop_one_append_first _ _ hne p0 _ h0, intercalate_cons_append]
    simp
  have hpieces : ∀ p ∈ (p0 ++ p1) :: rest, ¬ "<p>".toList <:+: p ++ "<p>".toList.dropLast := by
    intro p hp
    rcases List.mem_cons.mp hp with h | h
    · subst h
      exact h1
    · exact hr p h
  rw [s1, ReplaceAll_eq]
  split
  · rename_i he
    rw [← he, intercalate_cons_append]
  · rw [replaceLoop_intercalate _ _ hne _ hpieces, intercalate_cons_append]

/-! ## The claims -/

/-- C1: `printCommentTree` returns the header followed by `prettyPrintComments` at level 0
of the direct replies in their order; `prettyPrintComments` returns the block of the
comment followed by `prettyPrintComments` of its children, one level deeper and in their
order; hence the output is the header followed by the blocks of the reply nodes in
depth-first pre-order, one block for every reply node, every child at the level of its
parent plus one. The block of a comment at a level is its heading and its body, both
wrapped by `text.Wrap` to the width and with the padding of that level, followed by the
blank line, with the links of the body applied. -/
theorem printCommentTree_preOrder (E : Env) (root : Comments) (indentSize commentWith : Int) :
    printCommentTree E root indentSize commentWith =
        getHeader E root commentWith ++
          (root.Replies.map (fun r =>
            prettyPrintComments E r 0 indentSize commentWith root.Author [])).flatten
    ∧ (∀ (c : Comments) (level : Int) (originalPoster parentPoster : Str),
        prettyPrintComments E c level indentSize commentWith originalPoster parentPoster =
          commentBlock E c level indentSize commentWith originalPoster parentPoster ++
            (c.Replies.map (fun s => prettyPrintComments E s (level + 1) indentSize commentWith
              originalPoster (if level = 0 then c.Author else parentPoster))).flatten)
    ∧ printCommentTree E root indentSize commentWith =
        getHeader E root commentWith ++
          root.Replies.flatMap (fun top => (preOrder top 0).flatMap (fun x =>
            commentBlock E x.1 x.2 indentSize commentWith root.Author
              (if x.2 = 0 then [] else top.Author)))
    ∧ (root.Replies.flatMap (fun top => preOrder top 0)).length = descendants root
    ∧ (∀ (c : Comments) (level : Int) (originalPoster parentPoster : Str),
        commentBlock E c level indentSize commentWith originalPoster parentPoster =
          applyURLs E
            (E.Wrap (getCommentHeading E c level commentWith originalPoster parentPoster)
                (getAdjustedCommentWidth E.terminalWidth level indentSize commentWith)
                (some (getIndentBlockWithoutBar level indentSize)) ++
              E.Wrap (parseComment E c.Comment).1
                (getAdjustedCommentWidth E.terminalWidth level indentSize commentWith)
                (some (getIndentBlock E level indentSize)) ++
              E.DoubleNewLine)
            (parseComment E c.Comment).2) := by
  refine ⟨?_, ?_, ?_, ?_, fun c level op pp => commentBlock_eq E c level _ _ op pp⟩
  · simp [printCommentTree, printCommentTreeLoop_eq]
  · intro c level originalPoster parentPoster
    rw [prettyPrintComments_eq, prettyPrintCommentsLoop_eq]
  · simp only [printCommentTree, printCommentTreeLoop_eq, prettyPrintComments_zero]
    rfl
  · rw [descendants_eq]
    generalize root.Replies = rs
    induction rs with
    | nil => simp [descendantsList]
    | cons r rest ih =>
      simp only [List.flatMap_cons, List.length_append, preOrder_length, descendantsList, ih]

/-- C2, counterexample: at `W = 0`, level 9223372036854775803, indent size 2 and the
provided width 80 the product `indentSize*level` wraps around to `-10`, the usable width
is 10 and `getAdjustedCommentWidth` returns 10, not the value `W - indentSize*level`
of the formula over the integers. -/
theorem getAdjustedCommentWidth_spec_fails :
    (80 : Int) ≠ 0 ∧ (0 : Int) - 2 * 9223372036854775803 < 80 ∧
    getAdjustedCommentWidth 0 9223372036854775803 2 80 = 10 ∧
    getAdjustedCommentWidth 0 9223372036854775803 2 80 ≠ 0 - 2 * 9223372036854775803 := by
  decide

/-- C2, amended: with the terminal width `W` as an input, `getAdjustedCommentWidth` is
the claimed case formula in the 64-bit arithmetic of Go (every product, difference and
sum wrapped around at 64 bits); and whenever `indentSize*level`, `W - indentSize*level`
and `commentWidth + indentSize*level` are in the 64-bit range it is the formula over the
integers: `max (W - indentSize*level) 40` when `commentWidth` is 0, otherwise
`W - indentSize*level` when that is below `commentWidth`, otherwise
`commentWidth + indentSize*level`. -/
theorem getAdjustedCommentWidth_spec (W level indentSize commentWidth : Int) :
    getAdjustedCommentWidth W level indentSize commentWidth =
      (if commentWidth = 0 then Max.max (wrap64 (W - wrap64 (indentSize * level))) 40
      else if wrap64 (W - wrap64 (indentSize * level)) < commentWidth then
        wrap64 (W - wrap64 (indentSize * level))
      else wrap64 (commentWidth + wrap64 (indentSize * level)))
    ∧ (isInt64 (indentSize * level) → isInt64 (W - indentSize * level) →
        isInt64 (commentWidth + indentSize * level) →
        getAdjustedCommentWidth W level indentSize commentWidth =
          if commentWidth = 0 then Max.max (W - indentSize * level) 40
          else if W - indentSize * level < commentWidth then W - indentSize * level
          else commentWidth + indentSize * level) := by
  have hgo : getAdjustedCommentWidth W level indentSize commentWidth =
      (if commentWidth = 0 then Max.max (wrap64 (W - wrap64 (indentSize * level))) 40
      else if wrap64 (W - wrap64 (indentSize * level)) < commentWidth then
        wrap64 (W - wrap64 (indentSize * level))
      else wrap64 (commentWidth + wrap64 (indentSize * level))) := by
    simp only [getAdjustedCommentWidth, max_eq_max]
  refine ⟨hgo, ?_⟩
  intro h1 h2 h3
  rw [hgo, wrap64_of_isInt64 _ h1, wrap64_of_isInt64 _ h2, wrap64_of_isInt64 _ h3]

/-- C2, the amended claim on a terminal of 100 columns at level 3 with indent size 4 and
the provided width 80. -/
theorem getAdjustedCommentWidth_spec_witness :
    isInt64 (4 * 3) ∧ isInt64 (100 - 4 * 3) ∧ isInt64 (80 + 4 * 3) ∧
      getAdjustedCommentWidth 100 3 4 80 =
        (if (80 : Int) = 0 then Max.max (100 - 4 * 3) 40
        else if (100 : Int) - 4 * 3 < 80 then 100 - 4 * 3
        else 80 + 4 * 3) :=
  ⟨by decide, by decide, by decide,
   (getAdjustedCommentWidth_spec 100 3 4 80).2 (by decide) (by decide) (by decide)⟩

/-- C3, counterexample: on a terminal of width 0, at level 0 with indent size 0 and the
provided width 80, `getAdjustedCommentWidth` returns 0, which is below the floor of 40. -/
theorem getAdjustedCommentWidth_floor_fails :
    (0 : Int) ≤ 0 ∧ getAdjustedCommentWidth 0 0 0 80 = 0 ∧
      ¬ (40 ≤ getAdjustedCommentWidth 0 0 0 80) := by
  decide

/-- C3, amended: when `commentWidth` is 0, the width computed by
`getAdjustedCommentWidth` is at least 40 for every terminal width, level and indent
size: a usable width that is not positive is clamped to the floor of 40 columns. For a
terminal width `W ≤ 0`, a level `≥ 0` and an indent size `≥ 0` whose usable width
`W - indentSize*level` is computed without overflow, the width is at least 40 exactly
when `commentWidth` is 0. -/
theorem getAdjustedCommentWidth_floor (W level indentSize commentWidth : Int) :
    40 ≤ getAdjustedCommentWidth W level indentSize 0 ∧
    (W ≤ 0 → 0 ≤ level → 0 ≤ indentSize → isInt64 commentWidth →
      indentSize * level < 9223372036854775808 →
      -9223372036854775808 ≤ W - indentSize * level →
      (40 ≤ getAdjustedCommentWidth W level indentSize commentWidth ↔ commentWidth = 0)) := by
  have hzero : ∀ w l i : Int, 40 ≤ getAdjustedCommentWidth w l i 0 := by
    intro w l i
    simp only [getAdjustedCommentWidth, max, if_true]
    split <;> omega
  refine ⟨hzero W level indentSize, ?_⟩
  intro hW hl hi hc hP hU
  have hprod : 0 ≤ indentSize * level := mul_nonneg hi hl
  constructor
  · intro h
    by_contra hne
    simp only [getAdjustedCommentWidth, if_neg hne] at h
    generalize indentSize * level = P at h hprod hP hU
    have e1 : wrap64 P = P := wrap64_of_isInt64 P ⟨by omega, hP⟩
    have e2 : wrap64 (W - P) = W - P := wrap64_of_isInt64 _ ⟨hU, by omega⟩
    rw [e1, e2] at h
    split at h
    · omega
    · rename_i hlt
      have e3 : wrap64 (commentWidth + P) = commentWidth + P :=
        wrap64_of_isInt64 _ ⟨by have := hc.1; omega, by omega⟩
      rw [e3] at h
      omega
  · intro h0
    subst h0
    exact hzero W level indentSize

/-- C3, the amended claim at `W = -5`, level 3 and indent size 2 with the widths 0
and 80. -/
theorem getAdjustedCommentWidth_floor_witness :
    (-5 : Int) ≤ 0 ∧ (0 : Int) ≤ 3 ∧ (0 : Int) ≤ 2 ∧ isInt64 80 ∧
      40 ≤ getAdjustedCommentWidth (-5) 3 2 0 ∧
      (40 ≤ getAdjustedCommentWidth (-5) 3 2 80 ↔ (80 : Int) = 0) :=
  ⟨by decide, by decide, by decide, by decide,
   (getAdjustedCommentWidth_floor (-5) 3 2 0).1,
   (getAdjustedCommentWidth_floor (-5) 3 2 80).2 (by decide) (by decide) (by decide)
     (by decide) (by decide) (by decide)⟩

/-- C4, counterexample: a URL of exactly 60 single-byte characters is returned verbatim,
without the ellipsis marker; and a URL of 61 characters in which no character starts at
byte offset 60 is returned verbatim as well. -/
theorem truncateURL_sixty_fails :
    ((List.replicate 60 'a').length = 60 ∧
      truncateURL (List.replicate 60 'a') = List.replicate 60 'a' ∧
      truncateURL (List.replicate 60 'a') ≠ (List.replicate 60 'a').take 60 ++ "...".toList) ∧
    (wideURL.length = 61 ∧ truncateURL wideURL = wideURL ∧
      truncateURL wideURL ≠ wideURL.take 60 ++ "...".toList) := by
  decide

/-- C4, amended: a URL of at most 60 bytes is returned verbatim; a URL in which a
character starts at byte offset 60 is cut there and followed by the ellipsis marker;
so a URL of more than 60 single-byte characters becomes its first 60 characters
followed by the ellipsis marker. -/
theorem truncateURL_spec (URL : Str) :
    (byteLen URL ≤ 60 → truncateURL URL = URL) ∧
    (∀ p c r, URL = p ++ c :: r → byteLen p = 60 →
      truncateURL URL = p ++ "...".toList) ∧
    ((∀ c ∈ URL, c.utf8Size = 1) → 60 < URL.length →
      truncateURL URL = URL.take 60 ++ "...".toList) := by
  have hat : ∀ p c r, URL = p ++ c :: r → byteLen p = 60 →
      truncateURL URL = p ++ "...".toList := by
    intro p c r hURL hp
    have hpos := c.utf8Size_pos
    have hlen : ¬ byteLen URL < 60 := by
      rw [hURL, byteLen_append]
      simp only [byteLen]
      omega
    unfold truncateURL
    rw [if_neg hlen, hURL, truncateLoop_at p c r 0 [] (by omega)]
    simp
  refine ⟨?_, hat, ?_⟩
  · intro h
    unfold truncateURL
    split
    · rfl
    · simpa using truncateLoop_short URL 0 [] (by omega)
  · intro hs hl
    have hsplit : URL = URL.take 60 ++ URL.drop 60 := (List.take_append_drop 60 URL).symm
    obtain ⟨c, r, hcr⟩ : ∃ c r, URL.drop 60 = c :: r := by
      cases hd : URL.drop 60 with
      | nil =>
        have := congrArg List.length hd
        simp at this
        omega
      | cons c r => exact ⟨c, r, rfl⟩
    have htake : byteLen (URL.take 60) = 60 := by
      rw [byteLen_of_single _ (fun x hx => hs x (List.mem_of_mem_take hx))]
      simp
      omega
    exact hat (URL.take 60) c r (by rw [← hcr]; exact hsplit) htake

/-- C4, the amended claim at a URL of 19 characters and at a URL of 90 characters. -/
theorem truncateURL_spec_witness :
    byteLen "https://example.com".toList ≤ 60 ∧
    truncateURL "https://example.com".toList = "https://example.com".toList ∧
    byteLen "https://news.example.com/articles/2021/03/14/a-rather-long-t".toList = 60 ∧
    (∀ c ∈ longURL, c.utf8Size = 1) ∧ 60 < longURL.length ∧
    truncateURL longURL =
      "https://news.example.com/articles/2021/03/14/a-rather-long-t".toList ++ "...".toList ∧
    truncateURL longURL = longURL.take 60 ++ "...".toList :=
  ⟨by decide, (truncateURL_spec "https://example.com".toList).1 (by decide),
   by decide, by decide, by decide,
   (truncateURL_spec longURL).2.1
     "https://news.example.com/articles/2021/03/14/a-rather-long-t".toList 'i'
     "tle-of-an-article-about-termi".toList (by decide) (by decide),
   (truncateURL_spec longURL).2.2 (by decide) (by decide)⟩

/-- C5: for every URL `u`, `applyURLs` applied to the display string `truncateURL u`
with the URL list `[u]` returns one hyperlink escape whose target is the whole `u` and
whose visible text is the display string. -/
theorem applyURLs_truncateURL (E : Env) (u : Str) :
    applyURLs E (truncateURL u) [u] =
      E.Link1 ++ u ++ E.Link2 ++ truncateURL u ++ E.Link3 := by
  simp [applyURLs, ReplaceAll_self, getHyperlinkText]

set_option maxRecDepth 10000 in
/-- C6, counterexample: when the URL list holds the same URL twice, the second pass
rewrites the target and the visible text of the escape sequences the first pass
inserted: each link ends up as an escape sequence whose target and visible text are
escape sequences themselves, not as the link wrapped once. And when the display string
of the second URL occurs inside the first URL, the target of the first escape sequence
is rewritten. -/
theorem applyURLs_twice_fails :
    applyURLs ansiEnv twiceText ["https://a.io".toList, "https://a.io".toList] =
        "see ".toList ++
          getHyperlinkText ansiEnv
            (getHyperlinkText ansiEnv "https://a.io".toList "https://a.io".toList)
            (getHyperlinkText ansiEnv "https://a.io".toList "https://a.io".toList) ++
          " and ".toList ++
          getHyperlinkText ansiEnv
            (getHyperlinkText ansiEnv "https://a.io".toList "https://a.io".toList)
            (getHyperlinkText ansiEnv "https://a.io".toList "https://a.io".toList)
    ∧ applyURLs ansiEnv twiceText ["https://a.io".toList, "https://a.io".toList] ≠
        "see ".toList ++ getHyperlinkText ansiEnv "https://a.io".toList "https://a.io".toList ++
          " and ".toList ++ getHyperlinkText ansiEnv "https://a.io".toList "https://a.io".toList
    ∧ applyURLs ansiEnv "https://a.io/x".toList ["https://a.io/x".toList, "https://a.io".toList] ≠
        getHyperlinkText ansiEnv "https://a.io/x".toList "https://a.io/x".toList := by
  decide

/-- C6, amended: when every display string occurs at its own place only, `applyURLs`
replaces each of them by exactly one hyperlink escape sequence whose target is its URL,
and alters no other text. For a text `p₀ ++ d₁ ++ p₁ ++ ... ++ dₙ ++ pₙ` that shows the
display strings `dᵢ = truncateURL(URLᵢ)` of the URLs of the list in their order, where
no `dᵢ` is empty and no `dᵢ` occurs behind its place or in the text in front of it (with
the earlier links wrapped), the result is `p₀ ++ h₁ ++ p₁ ++ ... ++ hₙ ++ pₙ` with
`hᵢ = Link1 + URLᵢ + Link2 + dᵢ + Link3`. And the pass for one URL whose display string
`d` is not empty turns a text `p₀ ++ d ++ p₁ ++ d ++ ... ++ pₖ` in which `d` occurs at the
places shown only (any number of times, also not at all) into
`p₀ ++ h ++ p₁ ++ h ++ ... ++ pₖ`, to which the URLs that follow in the list are applied;
for a list of one URL this is the result. -/
theorem applyURLs_single (E : Env) (u : Str) (pieces : List Str) (p0 : Str)
    (tags : List (Str × Str)) :
    (linksApart E p0 tags = true →
      applyURLs E (p0 ++ shownLinks tags) (tags.map (fun x => x.1)) =
        p0 ++ tags.flatMap (fun x =>
          (E.Link1 ++ x.1 ++ E.Link2 ++ truncateURL x.1 ++ E.Link3) ++ x.2)) ∧
    (truncateURL u ≠ [] →
      (∀ p ∈ pieces, ¬ truncateURL u <:+: p ++ (truncateURL u).dropLast) →
      ∀ rest : List Str,
        applyURLs E (List.intercalate (truncateURL u) pieces) (u :: rest) =
          applyURLs E
            (List.intercalate (E.Link1 ++ u ++ E.Link2 ++ truncateURL u ++ E.Link3) pieces)
            rest) := by
  constructor
  · intro h
    exact applyURLs_linksApart E tags p0 h
  · intro hd hp rest
    simp only [applyURLs, getHyperlinkText, ReplaceAll_eq]
    split
    · rename_i he
      rw [← he]
    · rw [replaceLoop_intercalate _ _ hd pieces hp]

set_option maxRecDepth 20000 in
/-- C6, the amended claim at a text with two different links and at a text that shows
the link `https://a.io` twice. -/
theorem applyURLs_single_witness :
    linksApart ansiEnv "see ".toList
      [("https://a.io/x".toList, " and ".toList), ("https://b.org".toList, " [1]".toList)] =
        true ∧
    applyURLs ansiEnv "see https://a.io/x and https://b.org [1]".toList
        ["https://a.io/x".toList, "https://b.org".toList] =
      "see ".toList ++
        getHyperlinkText ansiEnv "https://a.io/x".toList "https://a.io/x".toList ++
        " and ".toList ++
        getHyperlinkText ansiEnv "https://b.org".toList "https://b.org".toList ++
        " [1]".toList ∧
    truncateURL "https://a.io".toList ≠ [] ∧
    (∀ p ∈ ["see ".toList, " and ".toList, []],
      ¬ truncateURL "https://a.io".toList <:+: p ++ (truncateURL "https://a.io".toList).dropLast) ∧
    applyURLs ansiEnv twiceText ["https://a.io".toList] =
      "see ".toList ++ getHyperlinkText ansiEnv "https://a.io".toList "https://a.io".toList ++
        " and ".toList ++ getHyperlinkText ansiEnv "https://a.io".toList "https://a.io".toList :=
  ⟨by decide,
   (applyURLs_single ansiEnv [] [] "see ".toList
      [("https://a.io/x".toList, " and ".toList), ("https://b.org".toList, " [1]".toList)]).1
      (by decide),
   by decide, by decide,
   (applyURLs_single ansiEnv "https://a.io".toList ["see ".toList, " and ".toList, []] [] []).2
      (by decide) (by decide) []⟩

/-- C7, counterexample: `&amp;gt;` is decoded to `&gt;`, and decoding that again
gives `>`. -/
theorem replaceCharacters_twice_fails :
    replaceCharacters "&amp;gt;".toList = "&gt;".toList ∧
      replaceCharacters (replaceCharacters "&amp;gt;".toList) = ">".toList ∧
      replaceCharacters (replaceCharacters "&amp;gt;".toList) ≠
        replaceCharacters "&amp;gt;".toList := by
  decide

/-- C7, amended: for every input in which `&amp;` is nowhere directly followed by the
rest of an entity (`#x27;`, `gt;`, `lt;`, `#x2F;`, `quot;` or `amp;`), decoding twice
equals decoding once. -/
theorem replaceCharacters_idempotent (s : Str)
    (h : ∀ e ∈ ["&amp;#x27;".toList, "&amp;gt;".toList, "&amp;lt;".toList,
      "&amp;#x2F;".toList, "&amp;quot;".toList, "&amp;amp;".toList], ¬ e <:+: s) :
    replaceCharacters (replaceCharacters s) = replaceCharacters s := by
  have n1 : "&#x27;".toList ≠ [] := by decide
  have n2 : "&gt;".toList ≠ [] := by decide
  have n3 : "&lt;".toList ≠ [] := by decide
  have n4 : "&#x2F;".toList ≠ [] := by decide
  have n5 : "&quot;".toList ≠ [] := by decide
  have n6 : "&amp;".toList ≠ [] := by decide
  -- `&amp;` followed by the rest of an entity does not occur after the first five passes
  have q1 := absent_after_five s "&amp;#x27;".toList (by decide) (by decide) (by decide)
    (by decide) (by decide) (h _ (by simp))
  have q2 := absent_after_five s "&amp;gt;".toList (by decide) (by decide) (by decide)
    (by decide) (by decide) (h _ (by simp))
  have q3 := absent_after_five s "&amp;lt;".toList (by decide) (by decide) (by decide)
    (by decide) (by decide) (h _ (by simp))
  have q4 := absent_after_five s "&amp;#x2F;".toList (by decide) (by decide) (by decide)
    (by decide) (by decide) (h _ (by simp))
  have q5 := absent_after_five s "&amp;quot;".toList (by decide) (by decide) (by decide)
    (by decide) (by decide) (h _ (by simp))
  have q6 := absent_after_five s "&amp;amp;".toList (by decide) (by decide) (by decide)
    (by decide) (by decide) (h _ (by simp))
  -- the intermediate texts
  generalize e1 : ReplaceAll s "&#x27;".toList "'".toList = s1 at q1 q2 q3 q4 q5 q6
  generalize e2 : ReplaceAll s1 "&gt;".toList ">".toList = s2 at q1 q2 q3 q4 q5 q6
  generalize e3 : ReplaceAll s2 "&lt;".toList "<".toList = s3 at q1 q2 q3 q4 q5 q6
  generalize e4 : ReplaceAll s3 "&#x2F;".toList "/".toList = s4 at q1 q2 q3 q4 q5 q6
  generalize e5 : ReplaceAll s4 "&quot;".toList "\"".toList = s5 at q1 q2 q3 q4 q5 q6
  generalize e6 : ReplaceAll s5 "&amp;".toList "&".toList = s6
  have hs : replaceCharacters s = s6 := by
    simp only [replaceCharacters, e1, e2, e3, e4, e5, e6]
  -- every entity but `&amp;` is gone after its own pass and does not come back
  have b1 : ¬ "&#x27;".toList <:+: s1 :=
    e1 ▸ not_infix_ReplaceAll_self s _ '\'' n1 (by decide)
  have b2 : ¬ "&#x27;".toList <:+: s2 :=
    e2 ▸ not_infix_ReplaceAll s1 _ _ '>' n2 (by decide) b1
  have b3 : ¬ "&#x27;".toList <:+: s3 :=
    e3 ▸ not_infix_ReplaceAll s2 _ _ '<' n3 (by decide) b2
  have b4 : ¬ "&#x27;".toList <:+: s4 :=
    e4 ▸ not_infix_ReplaceAll s3 _ _ '/' n4 (by decide) b3
  have b5 : ¬ "&#x27;".toList <:+: s5 :=
    e5 ▸ not_infix_ReplaceAll s4 _ _ '"' n5 (by decide) b4
  have c2 : ¬ "&gt;".toList <:+: s2 :=
    e2 ▸ not_infix_ReplaceAll_self s1 _ '>' n2 (by decide)
  have c3 : ¬ "&gt;".toList <:+: s3 :=
    e3 ▸ not_infix_ReplaceAll s2 _ _ '<' n3 (by decide) c2
  have c4 : ¬ "&gt;".toList <:+: s4 :=
    e4 ▸ not_infix_ReplaceAll s3 _ _ '/' n4 (by decide) c3
  have c5 : ¬ "&gt;".toList <:+: s5 :=
    e5 ▸ not_infix_ReplaceAll s4 _ _ '"' n5 (by decide) c4
  have d3 : ¬ "&lt;".toList <:+: s3 :=
    e3 ▸ not_infix_ReplaceAll_self s2 _ '<' n3 (by decide)
  have d4 : ¬ "&lt;".toList <:+: s4 :=
    e4 ▸ not_infix_ReplaceAll s3 _ _ '/' n4 (by decide) d3
  have d5 : ¬ "&lt;".toList <:+: s5 :=
    e5 ▸ not_infix_ReplaceAll s4 _ _ '"' n5 (by decide) d4
  have f4 : ¬ "&#x2F;".toList <:+: s4 :=
    e4 ▸ not_infix_ReplaceAll_self s3 _ '/' n4 (by decide)
  have f5 : ¬ "&#x2F;".toList <:+: s5 :=
    e5 ▸ not_infix_ReplaceAll s4 _ _ '"' n5 (by decide) f4
  have g5 : ¬ "&quot;".toList <:+: s5 :=
    e5 ▸ not_infix_ReplaceAll_self s4 _ '"' n5 (by decide)
  -- no entity occurs after the pass for `&amp;`
  have r1 : ¬ "&#x27;".toList <:+: s6 := fun hh =>
    (infix_ReplaceAll_cases s5 "&amp;".toList "#x27;".toList '&' n6 (by decide)
      (e6 ▸ hh)).elim b5 q1
  have r2 : ¬ "&gt;".toList <:+: s6 := fun hh =>
    (infix_ReplaceAll_cases s5 "&amp;".toList "gt;".toList '&' n6 (by decide)
      (e6 ▸ hh)).elim c5 q2
  have r3 : ¬ "&lt;".toList <:+: s6 := fun hh =>
    (infix_ReplaceAll_cases s5 "&amp;".toList "lt;".toList '&' n6 (by decide)
      (e6 ▸ hh)).elim d5 q3
  have r4 : ¬ "&#x2F;".toList <:+: s6 := fun hh =>
    (infix_ReplaceAll_cases s5 "&amp;".toList "#x2F;".toList '&' n6 (by decide)
      (e6 ▸ hh)).elim f5 q4
  have r5 : ¬ "&quot;".toList <:+: s6 := fun hh =>
    (infix_ReplaceAll_cases s5 "&amp;".toList "quot;".toList '&' n6 (by decide)
      (e6 ▸ hh)).elim g5 q5
  have r6 : ¬ "&amp;".toList <:+: s6 :=
    e6 ▸ not_infix_ReplaceAll_old s5 "amp;".toList '&' (by decide) q6
  rw [hs]
  simp only [replaceCharacters]
  rw [ReplaceAll_of_absent s6 _ _ n1 r1, ReplaceAll_of_absent s6 _ _ n2 r2,
    ReplaceAll_of_absent s6 _ _ n3 r3, ReplaceAll_of_absent s6 _ _ n4 r4,
    ReplaceAll_of_absent s6 _ _ n5 r5, ReplaceAll_of_absent s6 _ _ n6 r6]

/-- C7, the amended claim at `Hi &amp; bye` and at a text with four entities. -/
theorem replaceCharacters_idempotent_witness :
    (∀ e ∈ ["&amp;#x27;".toList, "&amp;gt;".toList, "&amp;lt;".toList,
      "&amp;#x2F;".toList, "&amp;quot;".toList, "&amp;amp;".toList],
      ¬ e <:+: "Hi &amp; bye".toList) ∧
    replaceCharacters "Hi &amp; bye".toList = "Hi & bye".toList ∧
    replaceCharacters (replaceCharacters "Hi &amp; bye".toList) =
      replaceCharacters "Hi &amp; bye".toList ∧
    replaceCharacters (replaceCharacters "a &lt; b &amp;&amp; c &gt; &quot;d&quot;".toList) =
      replaceCharacters "a &lt; b &amp;&amp; c &gt; &quot;d&quot;".toList :=
  ⟨by decide, by decide, replaceCharacters_idempotent "Hi &amp; bye".toList (by decide),
   replaceCharacters_idempotent "a &lt; b &amp;&amp; c &gt; &quot;d&quot;".toList (by decide)⟩

/-- C8: `labelAuthor` returns the bold author with the green suffix ` mod` when the author
is `dang` or `sctb`, whatever the original poster and the parent poster are; otherwise
with the red suffix ` OP` when the author is the original poster; otherwise with the
purple suffix ` PP` when the author is the parent poster; otherwise the bold author
alone. -/
theorem labelAuthor_precedence (E : Env) (author originalPoster parentPoster : Str) :
    labelAuthor E author originalPoster parentPoster =
      if author = "dang".toList ∨ author = "sctb".toList then
        E.bold author ++ E.green " mod".toList
      else if author = originalPoster then E.bold author ++ E.red " OP".toList
      else if author = parentPoster then E.bold author ++ E.purple " PP".toList
      else E.bold author := by
  simp only [labelAuthor]
  by_cases h1 : author = "dang".toList
  · rw [if_pos h1, if_pos (Or.inl h1)]
  · by_cases h2 : author = "sctb".toList
    · rw [if_neg h1, if_pos h2, if_pos (Or.inr h2)]
    · rw [if_neg h1, if_neg h2, if_neg (not_or.mpr ⟨h1, h2⟩)]

/-- C9: `prettyPrintComments` at level 0 passes the author of the comment to its children
as parent poster, and at every level `≥ 1` it passes on the parent poster it received;
the original poster is passed on unchanged. Hence, in the thread of a top-level comment,
every descendant is labelled against the author of the top-level comment, and in a
subtree rendered at a level `≥ 1` every node is labelled against the parent poster that
was passed in: the block of a node holds the heading `getCommentHeading` computed with
that parent poster, and the heading starts with the label `labelAuthor` of the author of
the node against the original poster and that parent poster. -/
theorem parentPoster_invariant (E : Env) (c : Comments) (indentSize commentWidth : Int)
    (originalPoster parentPoster : Str) :
    prettyPrintComments E c 0 indentSize commentWidth originalPoster parentPoster =
        commentBlock E c 0 indentSize commentWidth originalPoster parentPoster ++
          (c.Replies.map (fun s => prettyPrintComments E s 1 indentSize commentWidth
            originalPoster c.Author)).flatten
    ∧ (∀ level : Int, 1 ≤ level →
        prettyPrintComments E c level indentSize commentWidth originalPoster parentPoster =
          commentBlock E c level indentSize commentWidth originalPoster parentPoster ++
            (c.Replies.map (fun s => prettyPrintComments E s (level + 1) indentSize
              commentWidth originalPoster parentPoster)).flatten)
    ∧ prettyPrintComments E c 0 indentSize commentWidth originalPoster parentPoster =
        commentBlock E c 0 indentSize commentWidth originalPoster parentPoster ++
          (preOrderList c.Replies 1).flatMap (fun x =>
            commentBlock E x.1 x.2 indentSize commentWidth originalPoster c.Author)
    ∧ (∀ level : Int, 1 ≤ level →
        prettyPrintComments E c level indentSize commentWidth originalPoster parentPoster =
          (preOrder c level).flatMap (fun x =>
            commentBlock E x.1 x.2 indentSize commentWidth originalPoster parentPoster))
    ∧ (∀ (x : Comments) (level : Int) (op pp : Str),
        commentBlock E x level indentSize commentWidth op pp =
          applyURLs E
            (E.Wrap (getCommentHeading E x level commentWidth op pp)
                (getAdjustedCommentWidth E.terminalWidth level indentSize commentWidth)
                (some (getIndentBlockWithoutBar level indentSize)) ++
              E.Wrap (parseComment E x.Comment).1
                (getAdjustedCommentWidth E.terminalWidth level indentSize commentWidth)
                (some (getIndentBlock E level indentSize)) ++
              E.DoubleNewLine)
            (parseComment E x.Comment).2)
    ∧ (∀ (x : Comments) (level : Int) (op pp : Str),
        getCommentHeading E x level commentWidth op pp =
          if level = 0 then
            (labelAuthor E x.Author op pp ++ " ".toList) ++
              E.underline (E.dimmed x.Time) ++
              E.underline (getReplies E level (getNumberOfReplies x 0)) ++
              getUnderlineString E (labelAuthor E x.Author op pp ++ " ".toList)
                (E.underline (E.dimmed x.Time))
                (E.underline (getReplies E level (getNumberOfReplies x 0))) commentWidth ++
              E.NewLine
          else
            (labelAuthor E x.Author op pp ++ " ".toList) ++
              E.dimmed x.Time ++ getReplies E level (getNumberOfReplies x 0) ++ E.NewLine) := by
  refine ⟨?_, ?_, ?_, ?_, fun x level op pp => commentBlock_eq E x level _ _ op pp,
    fun x level op pp => getCommentHeading_eq E x level _ op pp⟩
  · rw [prettyPrintComments_eq, prettyPrintCommentsLoop_eq]
    simp
  · intro level hl
    have h0 : level ≠ 0 := by omega
    rw [prettyPrintComments_eq, prettyPrintCommentsLoop_eq, if_neg h0]
  · rw [prettyPrintComments_eq, if_pos rfl,
      prettyPrintCommentsLoop_preOrder E indentSize commentWidth originalPoster c.Author
        c.Author c.Replies 0 (le_refl 0)]
    simp
  · intro level hl
    have := prettyPrintComments_preOrder E indentSize commentWidth originalPoster parentPoster
      parentPoster c level hl
    simpa using this

set_option maxRecDepth 40000 in
/-- C9, the level `≥ 1` parts of the claim at `sampleThread` rendered at level 1; and in
the thread of `bob` rendered at level 0, the reply of `bob` at level 2, below `carol`,
carries the label of `bob` against the parent poster `bob`. -/
theorem parentPoster_invariant_witness :
    (1 : Int) ≤ 1 ∧
    (labelAuthor ansiEnv "bob".toList "alice".toList "bob".toList ++ " ".toList) <:+:
      prettyPrintComments ansiEnv sampleThread 0 2 70 "alice".toList [] ∧
    prettyPrintComments ansiEnv sampleThread 1 2 70 "alice".toList "zed".toList =
      commentBlock ansiEnv sampleThread 1 2 70 "alice".toList "zed".toList ++
        (sampleThread.Replies.map (fun s => prettyPrintComments ansiEnv s (1 + 1) 2 70
          "alice".toList "zed".toList)).flatten ∧
    prettyPrintComments ansiEnv sampleThread 1 2 70 "alice".toList "zed".toList =
      (preOrder sampleThread 1).flatMap (fun x =>
        commentBlock ansiEnv x.1 x.2 2 70 "alice".toList "zed".toList) :=
  ⟨by decide, by decide,
   (parentPoster_invariant ansiEnv sampleThread 2 70 "alice".toList "zed".toList).2.1 1
     (by decide),
   (parentPoster_invariant ansiEnv sampleThread 2 70 "alice".toList "zed".toList).2.2.2.1 1
     (by decide)⟩

/-- C10: `getNumberOfReplies`, called with the counter 0, returns the total number of
descendant replies of the comment, the comment itself not counted: the sum over its
direct replies of one plus the number returned for the reply, and 0 for a comment without
replies. -/
theorem getNumberOfReplies_descendants (c : Comments) :
    getNumberOfReplies c 0 = (descendants c : Int) ∧
    getNumberOfReplies c 0 = (c.Replies.map (fun r => 1 + getNumberOfReplies r 0)).sum ∧
    (c.Replies = [] → getNumberOfReplies c 0 = 0) := by
  have h1 : getNumberOfReplies c 0 = (descendants c : Int) := by
    rw [getNumberOfReplies_add]; simp
  have h2 : getNumberOfReplies c 0 =
      (c.Replies.map (fun r => 1 + getNumberOfReplies r 0)).sum := by
    rw [h1, descendants_eq, descendantsList_eq_sum]
  refine ⟨h1, h2, ?_⟩
  intro he
  rw [h2, he]
  rfl

/-- C10, the claim at a comment without replies. -/
theorem getNumberOfReplies_descendants_witness :
    (leaf "dave".toList "maybe".toList).Replies = [] ∧
      getNumberOfReplies (leaf "dave".toList "maybe".toList) 0 = 0 :=
  ⟨rfl, (getNumberOfReplies_descendants (leaf "dave".toList "maybe".toList)).2.2 rfl⟩

/-- C11: `getReplies` is the empty string at every level other than 0, whatever the
count is; at level 0 and a count `≤ 1` it is the dimmed, underlined bare marker ` ::`;
at level 0 and a count `> 1` the marker ` ::` is followed by a suffix that contains the
decimal rendering of the count. -/
theorem getReplies_threshold (E : Env) (level n : Int) :
    (level ≠ 0 → getReplies E level n = []) ∧
    (n ≤ 1 → getReplies E 0 n = E.underline (E.dimmed " ::".toList)) ∧
    (1 < n → ∃ suffix : Str,
      getReplies E 0 n = E.underline (E.dimmed (" ::".toList ++ suffix)) ∧
        Itoa n <:+: suffix) := by
  refine ⟨?_, ?_, ?_⟩
  · intro h
    simp only [getReplies, if_neg h]
  · intro h
    have hn : ¬ n > 1 := by omega
    simp only [getReplies, if_true, if_neg hn, List.append_nil]
  · intro h
    have hn : n > 1 := h
    refine ⟨" ".toList ++ Itoa n ++ " ⤶".toList, ?_, ?_⟩
    · simp only [getReplies, if_true, if_pos hn]
    · exact ⟨" ".toList, " ⤶".toList, rfl⟩

/-- C11, the claim at level 3 with count 5, at level 0 with count 1 and at level 0 with
count 12. -/
theorem getReplies_threshold_witness :
    getReplies ansiEnv 3 5 = [] ∧
    getReplies ansiEnv 0 1 = ansiEnv.underline (ansiEnv.dimmed " ::".toList) ∧
    (∃ suffix : Str,
      getReplies ansiEnv 0 12 = ansiEnv.underline (ansiEnv.dimmed (" ::".toList ++ suffix)) ∧
        Itoa 12 <:+: suffix) :=
  ⟨(getReplies_threshold ansiEnv 3 5).1 (by decide),
   (getReplies_threshold ansiEnv 0 1).2.1 (by decide),
   (getReplies_threshold ansiEnv 0 12).2.2 (by decide)⟩

/-- C12, counterexample: for the count 2 the marker text handed to the styles is
` :: 2 ⤶`, with one space between `::` and the count, not ` ::  2 ⤶` with two. -/
theorem getReplies_two_spaces_fails :
    getReplies ansiEnv 0 2 = ansiEnv.underline (ansiEnv.dimmed " :: 2 ⤶".toList) ∧
      getReplies ansiEnv 0 2 ≠ ansiEnv.underline (ansiEnv.dimmed " ::  2 ⤶".toList) := by
  decide

/-- C12, amended: for every count `n > 1`, `getReplies` at level 0 is the dimmed,
underlined string ` :: <n> ⤶`, with one space between `::` and the count. -/
theorem getReplies_format (E : Env) (n : Int) (h : 1 < n) :
    getReplies E 0 n =
      E.underline (E.dimmed (" :: ".toList ++ Itoa n ++ " ⤶".toList)) := by
  have hn : n > 1 := h
  simp only [getReplies, if_true, if_pos hn]
  rfl

/-- C12, the amended claim at the count 2. -/
theorem getReplies_format_witness :
    (1 : Int) < 2 ∧
      getReplies ansiEnv 0 2 = ansiEnv.underline (ansiEnv.dimmed " :: 2 ⤶".toList) :=
  ⟨by decide, getReplies_format ansiEnv 2 (by decide)⟩

/-- C17: `getHyperlink` returns `Link1 + URL + Link2 + domain + Link3` when the domain is
not empty, and for the empty domain the link to the discussion of the post:
`Link1 + "https://news.ycombinator.com/item?id=" + id + Link2 + "item?id=" + id + Link3`
with the decimal rendering of `id`. -/
theorem getHyperlink_target (E : Env) (domain URL : Str) (id : Int) :
    getHyperlink E domain URL id =
      if domain ≠ [] then E.Link1 ++ URL ++ E.Link2 ++ domain ++ E.Link3
      else
        E.Link1 ++ ("https://news.ycombinator.com/item?id=".toList ++ Itoa id) ++ E.Link2 ++
          ("item?id=".toList ++ Itoa id) ++ E.Link3 := by
  unfold getHyperlink getHyperlinkText
  split <;> rfl

/-- C18, counterexample: on a terminal of 80 columns, at level 2 with indent size
9223372036854775803 and the provided width 100, the product `indentSize*level` wraps
around to `-10`, the usable width is 90 and `getAdjustedCommentWidth` returns 90, more
than the terminal width. -/
theorem getAdjustedCommentWidth_le_terminal_fails :
    (0 : Int) ≤ 2 ∧ (0 : Int) ≤ 9223372036854775803 ∧ (0 : Int) < 100 ∧
    getAdjustedCommentWidth 80 2 9223372036854775803 100 = 90 ∧
    ¬ (getAdjustedCommentWidth 80 2 9223372036854775803 100 ≤ 80) := by
  decide

/-- C18, amended: with a provided comment width `> 0`, a level `≥ 0` and an indent size
`≥ 0` whose product `indentSize*level` and usable width `W - indentSize*level` are
computed without overflow, the width returned by `getAdjustedCommentWidth` is at most
the terminal width `W`. -/
theorem getAdjustedCommentWidth_le_terminal (W level indentSize commentWidth : Int)
    (hl : 0 ≤ level) (hi : 0 ≤ indentSize) (hc : 0 < commentWidth) (hW : isInt64 W)
    (hP : indentSize * level < 9223372036854775808)
    (hU : -9223372036854775808 ≤ W - indentSize * level) :
    getAdjustedCommentWidth W level indentSize commentWidth ≤ W := by
  have hprod : 0 ≤ indentSize * level := mul_nonneg hi hl
  have hne : commentWidth ≠ 0 := by omega
  obtain ⟨hW1, hW2⟩ := hW
  simp only [getAdjustedCommentWidth, if_neg hne]
  generalize indentSize * level = P at hprod hP hU
  have e1 : wrap64 P = P := wrap64_of_isInt64 P ⟨by omega, hP⟩
  have e2 : wrap64 (W - P) = W - P := wrap64_of_isInt64 _ ⟨hU, by omega⟩
  rw [e1, e2]
  split
  · omega
  · rename_i hlt
    have e3 : wrap64 (commentWidth + P) = commentWidth + P :=
      wrap64_of_isInt64 _ ⟨by omega, by omega⟩
    rw [e3]
    omega

/-- C18, the amended claim on a terminal of 100 columns at level 3, with indent size 4
and the provided width 80, and on a terminal of 60 columns. -/
theorem getAdjustedCommentWidth_le_terminal_witness :
    (0 : Int) ≤ 3 ∧ (0 : Int) ≤ 4 ∧ (0 : Int) < 80 ∧ isInt64 100 ∧
      (4 : Int) * 3 < 9223372036854775808 ∧ -9223372036854775808 ≤ (100 : Int) - 4 * 3 ∧
      getAdjustedCommentWidth 100 3 4 80 ≤ 100 ∧ getAdjustedCommentWidth 60 3 4 80 ≤ 60 :=
  ⟨by decide, by decide, by decide, by decide, by decide, by decide,
   getAdjustedCommentWidth_le_terminal 100 3 4 80 (by decide) (by decide) (by decide)
     (by decide) (by decide) (by decide),
   getAdjustedCommentWidth_le_terminal 60 3 4 80 (by decide) (by decide) (by decide)
     (by decide) (by decide) (by decide)⟩

/-- C19, counterexample: at level 3 with indent size 6148914691236517206 the product
`indentSize*level` wraps around to 2: `getIndentBlock` starts with 2 spaces and
`getIndentBlockWithoutBar` is 3 spaces, not `indentSize*level` and `indentSize*level + 1`
spaces. -/
theorem indentBlocks_aligned_fails :
    (1 : Int) ≤ 3 ∧ (0 : Int) ≤ 6148914691236517206 ∧
    getIndentBlockWithoutBar 3 6148914691236517206 = List.replicate 3 ' ' ∧
    getIndentBlock ansiEnv 3 6148914691236517206 =
      List.replicate 2 ' ' ++ ansiEnv.Normal ++ ansiEnv.getColoredIndentBlock 3 ++
        "▎".toList ++ ansiEnv.Normal ∧
    ((getIndentBlockWithoutBar 3 6148914691236517206).length : Int) ≠
      6148914691236517206 * 3 + 1 := by
  decide

/-- C19, amended: at a level `≥ 1` and an indent size `≥ 0` whose product
`indentSize*level` is computed without overflow, `getIndentBlock` is `indentSize*level`
spaces followed by `Normal`, the colour of the level, the bar glyph and `Normal`, and
`getIndentBlockWithoutBar` is `indentSize*level + 1` spaces, as many runes as the spaces
and the bar glyph of `getIndentBlock`; at level 0 both are the empty string. -/
theorem indentBlocks_aligned (E : Env) (level indentSize : Int) :
    (1 ≤ level → 0 ≤ indentSize → indentSize * level < 9223372036854775808 →
      getIndentBlock E level indentSize =
        List.replicate (indentSize * level).toNat ' ' ++ E.Normal ++
          E.getColoredIndentBlock level ++ "▎".toList ++ E.Normal ∧
      getIndentBlockWithoutBar level indentSize =
        List.replicate ((indentSize * level).toNat + 1) ' ' ∧
      (getIndentBlockWithoutBar level indentSize).length =
        (List.replicate (indentSize * level).toNat ' ' ++ "▎".toList).length ∧
      ((indentSize * level).toNat : Int) = indentSize * level) ∧
    getIndentBlock E 0 indentSize = [] ∧ getIndentBlockWithoutBar 0 indentSize = [] := by
  refine ⟨?_, ?_, ?_⟩
  · intro hl hi hP
    have h0 : level ≠ 0 := by omega
    have hprod : 0 ≤ indentSize * level := mul_nonneg hi (by omega)
    have hw : wrap64 (indentSize * level) = indentSize * level :=
      wrap64_of_isInt64 _ ⟨by omega, hP⟩
    have hbar : getIndentBlockWithoutBar level indentSize =
        List.replicate ((indentSize * level).toNat + 1) ' ' := by
      simp only [getIndentBlockWithoutBar, if_neg h0, hw]
      rfl
    refine ⟨?_, hbar, ?_, Int.toNat_of_nonneg hprod⟩
    · simp only [getIndentBlock, if_neg h0, hw, List.append_assoc]
    · rw [hbar]
      simp
  · simp [getIndentBlock]
  · simp [getIndentBlockWithoutBar]

/-- C19, the amended claim at level 2 with indent size 4. -/
theorem indentBlocks_aligned_witness :
    (1 : Int) ≤ 2 ∧ (0 : Int) ≤ 4 ∧ (4 : Int) * 2 < 9223372036854775808 ∧
      getIndentBlockWithoutBar 2 4 = List.replicate 9 ' ' ∧
      getIndentBlock ansiEnv 2 4 =
        List.replicate 8 ' ' ++ ansiEnv.Normal ++ ansiEnv.getColoredIndentBlock 2 ++
          "▎".toList ++ ansiEnv.Normal :=
  ⟨by decide, by decide, by decide,
   ((indentBlocks_aligned ansiEnv 2 4).1 (by decide) (by decide) (by decide)).2.1,
   ((indentBlocks_aligned ansiEnv 2 4).1 (by decide) (by decide) (by decide)).1⟩

/-- C14: for a comment text that contains none of the characters `&`, `<` and `[`,
`parseComment` returns the text unchanged together with the empty URL list, and every
transform on the way (`replaceCharacters`, `replaceHTML`, `colorizeLinkNumbers`,
`extractURLs`, `trimURLs`) leaves it as it is. -/
theorem parseComment_plain (E : Env) (t : Str)
    (hamp : '&' ∉ t) (hlt : '<' ∉ t) (hbr : '[' ∉ t) :
    parseComment E t = (t, []) ∧
      replaceCharacters t = t ∧ replaceHTML E t = t ∧ colorizeLinkNumbers E t = t ∧
      extractURLs t = [] ∧ trimURLs t = t := by
  have h1 := replaceCharacters_of_no_amp t hamp
  have h2 := replaceHTML_of_no_lt E t hlt
  have h3 := colorizeLinkNumbers_of_no_bracket E t hbr
  have ha : ¬ anchorOpen <:+: t := absent_of_not_mem _ t '<' (by decide) hlt
  have h4 : extractURLs t = [] := by
    simp [extractURLs, findAllAnchors_of_absent _ t ha]
  have h5 : trimURLs t = t := replaceAllAnchors_of_absent [] t ha
  refine ⟨?_, h1, h2, h3, h4, h5⟩
  simp only [parseComment, h1, h2, h3, h4, h5]

/-- C14, the claim at a text without `&`, `<` and `[`. -/
theorem parseComment_plain_witness :
    '&' ∉ "I agree, see RFC 2616 (section 4).".toList ∧
    '<' ∉ "I agree, see RFC 2616 (section 4).".toList ∧
    '[' ∉ "I agree, see RFC 2616 (section 4).".toList ∧
    parseComment ansiEnv "I agree, see RFC 2616 (section 4).".toList =
      ("I agree, see RFC 2616 (section 4).".toList, []) :=
  ⟨by decide, by decide, by decide,
   (parseComment_plain ansiEnv "I agree, see RFC 2616 (section 4).".toList
     (by decide) (by decide) (by decide)).1⟩

/-- C16, counterexample: the first occurrence of `<p>` is deleted, not turned into a
double line break: `a<p>b` becomes `ab`, and `a<p>b<p>c`, with two occurrences, gets one
double line break. -/
theorem replaceHTML_first_paragraph_fails :
    replaceHTML ansiEnv "a<p>b".toList = "ab".toList ∧
    replaceHTML ansiEnv "a<p>b".toList ≠ "a".toList ++ ansiEnv.DoubleNewLine ++ "b".toList ∧
    replaceHTML ansiEnv "a<p>b<p>c".toList =
      "ab".toList ++ ansiEnv.DoubleNewLine ++ "c".toList := by
  decide

/-- C16, amended: `replaceHTML` deletes the first occurrence of `<p>` and turns every
further occurrence into a double line break, before it replaces the other markup. For
pieces `p₀, p₁, ..., pₖ` between which `<p>` occurs at the places shown only (also when
`p₀` and `p₁` are joined), the input `p₀<p>p₁<p>...<p>pₖ` becomes
`p₀ ++ p₁ ++ DoubleNewLine ++ p₂ ++ ... ++ DoubleNewLine ++ pₖ` with the other markup
(`<i>`, `</i>`, `</a>`, `<pre><code>`, `</code></pre>`) replaced in it, so that `k`
occurrences yield `k - 1` double line breaks; an input without `<p>` only has the other
markup replaced; and when neither the pieces nor the double line break hold a `<`, the
result is `p₀ ++ p₁ ++ DoubleNewLine ++ ... ++ DoubleNewLine ++ pₖ` itself. -/
theorem replaceHTML_paragraphs (E : Env) (p0 p1 : Str) (rest ps : List Str) :
    (¬ "<p>".toList <:+: p0 ++ "<p".toList → ¬ "<p>".toList <:+: (p0 ++ p1) ++ "<p".toList →
      (∀ p ∈ rest, ¬ "<p>".toList <:+: p ++ "<p".toList) →
      replaceHTML E (List.intercalate "<p>".toList (p0 :: p1 :: rest)) =
        ReplaceAll (ReplaceAll (ReplaceAll (ReplaceAll (ReplaceAll
          (p0 ++ List.intercalate E.DoubleNewLine (p1 :: rest))
          "<i>".toList E.Italic) "</i>".toList E.Normal) "</a>".toList [])
          "<pre><code>".toList E.Dimmed) "</code></pre>".toList E.Normal) ∧
    (¬ "<p>".toList <:+: p0 →
      replaceHTML E p0 =
        ReplaceAll (ReplaceAll (ReplaceAll (ReplaceAll (ReplaceAll p0
          "<i>".toList E.Italic) "</i>".toList E.Normal) "</a>".toList [])
          "<pre><code>".toList E.Dimmed) "</code></pre>".toList E.Normal) ∧
    ('<' ∉ E.DoubleNewLine → '<' ∉ p0 → (∀ p ∈ ps, '<' ∉ p) →
      replaceHTML E (List.intercalate "<p>".toList (p0 :: ps)) =
        p0 ++ List.intercalate E.DoubleNewLine ps) := by
  refine ⟨?_, ?_, ?_⟩
  · intro h0 h1 hr
    simp only [replaceHTML, paragraph_stage E.DoubleNewLine p0 p1 rest h0 h1 hr]
  · intro h0
    have hne : "<p>".toList ≠ [] := by decide
    simp only [replaceHTML, Replace_of_absent p0 _ _ 1 hne h0,
      ReplaceAll_of_absent p0 _ _ hne h0]
  · intro hD hp0 hps
    cases ps with
    | nil => simpa [List.intercalate] using replaceHTML_of_no_lt E p0 hp0
    | cons q qs => exact replaceHTML_two_pieces E p0 q qs hD hp0 hps

set_option maxRecDepth 20000 in
/-- C16, the amended claim at `a <i>b</i><p>c<p>d`, at `a <i>b</i>` and at
`one<p>two<p>three`. -/
theorem replaceHTML_paragraphs_witness :
    (¬ "<p>".toList <:+: "a <i>b</i>".toList ++ "<p".toList) ∧
    (¬ "<p>".toList <:+: ("a <i>b</i>".toList ++ "c".toList) ++ "<p".toList) ∧
    (∀ p ∈ ["d".toList], ¬ "<p>".toList <:+: p ++ "<p".toList) ∧
    replaceHTML ansiEnv "a <i>b</i><p>c<p>d".toList =
      "a ".toList ++ ansiEnv.Italic ++ "b".toList ++ ansiEnv.Normal ++ "c".toList ++
        ansiEnv.DoubleNewLine ++ "d".toList ∧
    replaceHTML ansiEnv "a <i>b</i>".toList =
      "a ".toList ++ ansiEnv.Italic ++ "b".toList ++ ansiEnv.Normal ∧
    replaceHTML ansiEnv "one<p>two<p>three".toList =
      "one".toList ++ ("two".toList ++ ansiEnv.DoubleNewLine ++ "three".toList) :=
  ⟨by decide, by decide, by decide,
   (replaceHTML_paragraphs ansiEnv "a <i>b</i>".toList "c".toList ["d".toList] []).1
     (by decide) (by decide) (by decide),
   (replaceHTML_paragraphs ansiEnv "a <i>b</i>".toList [] [] []).2.1 (by decide),
   (replaceHTML_paragraphs ansiEnv "one".toList [] [] ["two".toList, "three".toList]).2.2
     (by decide) (by decide) (by decide)⟩

set_option maxRecDepth 20000 in
/-- C20, the code at an empty domain: `ReplaceAll` with the empty string as the text to
replace puts the hyperlink in front of every character of the wrapped headline and
behind the last one. For the title `Hi` on `ansiEnv` the wrapped headline has six
characters, the permalink occurs seven times and the two characters of the title are
not next to each other in the result. -/
theorem getHeadline_empty_domain (E : Env) (title URL : Str) (id commentWidth : Int) :
    getHeadline E title [] URL id commentWidth =
      getHyperlink E [] URL id ++
        (E.Wrap (title ++ " ".toList ++ E.paren [] ++ E.NewLine) commentWidth none).flatMap
          (fun c => c :: getHyperlink E [] URL id)
    ∧ getHeadline ansiEnv "Hi".toList [] [] 7 80 =
        getHyperlink ansiEnv [] [] 7 ++ 'H' :: getHyperlink ansiEnv [] [] 7 ++
          'i' :: getHyperlink ansiEnv [] [] 7 ++ ' ' :: getHyperlink ansiEnv [] [] 7 ++
          '(' :: getHyperlink ansiEnv [] [] 7 ++ ')' :: getHyperlink ansiEnv [] [] 7 ++
          '\n' :: getHyperlink ansiEnv [] [] 7
    ∧ ¬ "Hi".toList <:+: getHeadline ansiEnv "Hi".toList [] [] 7 80 := by
  refine ⟨?_, by decide, by decide⟩
  simp only [getHeadline, ReplaceAll_eq]
  split
  · rename_i he
    rw [← he]
    simp
  · simp [replaceEmpty_none]

/-- C13, counterexample: the input `<a href="x<a href=" rel="nofollow">` is one tag of
the form, with the href target `x<a href=`; `extractURLs` deletes every occurrence of
the two literals from the match and returns `x rel="nofollow">`, not the href target. -/
theorem extractURLs_target_fails :
    anchorTag "x<a href=".toList = "<a href=\"x<a href=\" rel=\"nofollow\">".toList ∧
    extractURLs "<a href=\"x<a href=\" rel=\"nofollow\">".toList =
      ["x rel=\"nofollow\">".toList] ∧
    extractURLs "<a href=\"x<a href=\" rel=\"nofollow\">".toList ≠ ["x<a href=".toList] := by
  decide

/-- C13, amended: for every input, `extractURLs` returns at most 10 URLs, namely the
first (up to 10) successive matches of the anchor expression, in their order, each with
the occurrences of the opening and of the closing literal deleted. For an input made of
`n` tags, where no opening literal starts in the text before, between and behind the
tags, and where no href target holds a line feed, the closing literal or (also together
with the closing literal) the opening literal, the result is the list of the first
`min(n, 10)` href targets, in the order of the tags. -/
theorem extractURLs_bound_order (input : Str) :
    (extractURLs input).length ≤ 10 ∧
    extractURLs input = ((findAllAnchors none 0 input).take 10).map
      (fun m => ReplaceAll (ReplaceAll m anchorOpen []) anchorClose []) ∧
    (∀ (p0 : Str) (tags : List (Str × Str)), input = withAnchors p0 tags →
      ¬ anchorOpen <:+: p0 ++ anchorOpen.dropLast →
      (∀ x ∈ tags, '\n' ∉ x.1 ∧ ¬ anchorClose <:+: x.1 ++ anchorClose.dropLast ∧
        ¬ anchorOpen <:+: x.1 ++ anchorClose ∧ ¬ anchorOpen <:+: x.2 ++ anchorOpen.dropLast) →
      extractURLs input = (tags.map (fun x => x.1)).take 10 ∧
        (extractURLs input).length = min tags.length 10) := by
  refine ⟨?_, ?_, ?_⟩
  · simpa [extractURLs] using findAllAnchors_length_le 10 0 input
  · simp only [extractURLs, findAllAnchors_take]
  · intro p0 tags hin hp0 hts
    have h := extractURLs_withAnchors p0 tags hp0 hts
    rw [hin, h]
    refine ⟨rfl, ?_⟩
    simp [Nat.min_comm]

set_option maxRecDepth 20000 in
/-- C13, the amended claim at a text with two links and at a text with eleven links. -/
theorem extractURLs_bound_order_witness :
    (¬ anchorOpen <:+: "see ".toList ++ anchorOpen.dropLast) ∧
    extractURLs twoLinks = ["https://a.io/x".toList, "https://b.org".toList] ∧
    (extractURLs (withAnchors [] elevenTags)).length = 10 ∧
    extractURLs (withAnchors [] elevenTags) = List.replicate 10 "https://a.io".toList :=
  ⟨by decide,
   ((extractURLs_bound_order twoLinks).2.2 "see ".toList
     [("https://a.io/x".toList, "https://a.io/x and ".toList),
      ("https://b.org".toList, "https://b.org [1]".toList)] rfl (by decide) (by decide)).1,
   ((extractURLs_bound_order (withAnchors [] elevenTags)).2.2 [] elevenTags rfl
     (by decide) (by decide)).2,
   ((extractURLs_bound_order (withAnchors [] elevenTags)).2.2 [] elevenTags rfl
     (by decide) (by decide)).1⟩

set_option maxRecDepth 20000 in
/-- C15, the code at a link whose href target holds a bracketed token: `parseComment`
colorizes before it extracts, so for the targets `https://a.io/[1]` and
`https://a.io/?f[0]=x` the colour escapes are written into the target: the URL extracted
after colorization is not the URL extracted without it, and the link target returned by
`parseComment` is not the href value. -/
theorem extractURLs_colorize_fails :
    extractURLs bracketLink = ["https://a.io/[1]".toList] ∧
    extractURLs (colorizeLinkNumbers ansiEnv bracketLink) =
      ["https://a.io/[".toList ++ ansiEnv.red "1".toList ++ "]".toList] ∧
    extractURLs (colorizeLinkNumbers ansiEnv bracketLink) ≠ extractURLs bracketLink ∧
    (parseComment ansiEnv bracketLink).2 ≠ ["https://a.io/[1]".toList] ∧
    extractURLs indexLink = ["https://a.io/?f[0]=x".toList] ∧
    (parseComment ansiEnv indexLink).2 =
      ["https://a.io/?f[".toList ++ ansiEnv.white "0".toList ++ "]=x".toList] ∧
    (parseComment ansiEnv indexLink).2 ≠ ["https://a.io/?f[0]=x".toList] := by
  decide

set_option maxRecDepth 40000 in
/-- C21, the code at a deleted top-level comment: `printCommentTree` renders every direct
reply at level 0 with the empty string as parent poster, and `labelAuthor` with the empty
parent poster takes the ` PP` case exactly for the empty author that is not the original
poster. For the story of `alice` with one deleted top-level comment the heading of that
comment starts with the bold empty author followed by the purple ` PP`, which so occurs
in the output of `printCommentTree`. -/
theorem labelAuthor_deleted_top_level (E : Env) (root : Comments)
    (indentSize commentWith : Int) (author : Str) :
    printCommentTree E root indentSize commentWith =
        getHeader E root commentWith ++
          (root.Replies.map (fun r =>
            commentBlock E r 0 indentSize commentWith root.Author [] ++
              prettyPrintCommentsLoop E r.Replies 0 indentSize commentWith root.Author
                r.Author)).flatten
    ∧ labelAuthor E author root.Author [] =
        (if author = "dang".toList ∨ author = "sctb".toList then
          E.bold author ++ E.green " mod".toList
        else if author = root.Author then E.bold author ++ E.red " OP".toList
        else if author = [] then E.bold author ++ E.purple " PP".toList
        else E.bold author)
    ∧ labelAuthor ansiEnv [] deletedStory.Author [] =
        ansiEnv.bold [] ++ ansiEnv.purple " PP".toList
    ∧ (ansiEnv.bold [] ++ ansiEnv.purple " PP".toList) <+:
        getCommentHeading ansiEnv (leaf [] "[deleted]".toList) 0 70 deletedStory.Author []
    ∧ ansiEnv.purple " PP".toList <:+: printCommentTree ansiEnv deletedStory 2 70 := by
  refine ⟨?_, ?_, by decide, by decide, by decide⟩
  · simp only [printCommentTree, printCommentTreeLoop_eq, prettyPrintComments_eq, if_true]
  · simp only [labelAuthor]
    by_cases h1 : author = "dang".toList
    · rw [if_pos h1, if_pos (Or.inl h1)]
    · by_cases h2 : author = "sctb".toList
      · rw [if_neg h1, if_pos h2, if_pos (Or.inr h2)]
      · rw [if_neg h1, if_neg h2, if_neg (not_or.mpr ⟨h1, h2⟩)]

end Circumflex
